import Mathlib

/-!
Verification development for the wordle-math-solver repository.

The definitions below are a shallow embedding of the solver core found in
src/app.js (lines 879-1795, the newer copy of the solver that the web app
runs; src/solver.js is an older standalone copy of the same functions).
Strings are modelled as List Char; JS objects keyed by single characters
are modelled as association lists with first-match lookup; JS Set objects
are modelled as duplicate-free lists with add-if-absent; the externally
owned mutable cancellation flag cancelledRef.value is modelled as a
schedule indexed by the dfs call counter.

The left side of an equation is evaluated in the source by the JS
expression evaluator (Function with a return statement).  We embed the
fragment of JS expression semantics reachable over the alphabet
0-9 + - * / : maximal-munch tokenization (so ++ and -- lex as the
increment and decrement tokens, which are syntax errors on numeric
literals, ** lexes as exponentiation, and // starts a line comment that
discards the rest of the expression; /* ... */ block comments are
skipped, an unterminated one is a syntax error), standard precedence with
unary plus and minus (a unary expression is not a legal base of **, as in
JS), and exact rational arithmetic in place of IEEE doubles (division by
zero, which JS turns into an Infinity or NaN rejected by the
Number.isFinite check, is evaluation failure here; legacy octal literals
and double rounding are not modelled, none of the concrete computations
below involve them).
-/

namespace WordleSolver

set_option maxRecDepth 1000000

set_option maxHeartbeats 4000000

/-- The 15 symbol alphabet of the game, in the order the source string
0123456789+-*slash-equals lists it. -/
def alphabet : List Char :=
  ['0', '1', '2', '3', '4', '5', '6', '7', '8', '9', '+', '-', '*', '/', '=']

/-- Membership in the regex class [+\-*\/] used by the source. -/
def isOperator (c : Char) : Bool :=
  c = '+' || c = '-' || c = '*' || c = '/'

/-- Association-list lookup with first-match semantics, modelling access
to a JS object keyed by single-character strings. -/
def alookup {β : Type} : List (Char × β) → Char → Option β
  | [], _ => none
  | e :: r, c => if e.1 = c then some e.2 else alookup r c

/-- Tokens of the JS expression fragment reachable from a string over
digits and the four operators. -/
inductive Tok where
  | num (n : Nat)
  | plus
  | minus
  | star
  | slash
  | pow2
  | inc2
  | dec2
deriving DecidableEq

/-- Maximal-munch read of a decimal literal. -/
def readNum : Nat → List Char → Nat × List Char
  | acc, [] => (acc, [])
  | acc, c :: cs =>
    if c.isDigit then readNum (acc * 10 + (c.toNat - 48)) cs else (acc, c :: cs)

/-- Skip a block comment body, looking for the closing star-slash. -/
def skipBlockComment : List Char → Option (List Char)
  | '*' :: '/' :: rest => some rest
  | _ :: rest => skipBlockComment rest
  | [] => none

/-- Maximal-munch tokenizer for the left side of an equation.  The fuel
argument is a step bound; length + 1 always suffices because every step
consumes at least one character. -/
def tokenize : Nat → List Char → Option (List Tok)
  | 0, _ => none
  | _, [] => some []
  | fuel + 1, c :: cs =>
    if c.isDigit then
      let p := readNum 0 (c :: cs)
      match tokenize fuel p.2 with
      | some ts => some (Tok.num p.1 :: ts)
      | none => none
    else if c = '+' then
      match cs with
      | '+' :: cs2 => (tokenize fuel cs2).map (fun ts => Tok.inc2 :: ts)
      | _ => (tokenize fuel cs).map (fun ts => Tok.plus :: ts)
    else if c = '-' then
      match cs with
      | '-' :: cs2 => (tokenize fuel cs2).map (fun ts => Tok.dec2 :: ts)
      | _ => (tokenize fuel cs).map (fun ts => Tok.minus :: ts)
    else if c = '*' then
      match cs with
      | '*' :: cs2 => (tokenize fuel cs2).map (fun ts => Tok.pow2 :: ts)
      | _ => (tokenize fuel cs).map (fun ts => Tok.star :: ts)
    else if c = '/' then
      match cs with
      | '/' :: _ => some []
      | '*' :: cs2 =>
        match skipBlockComment cs2 with
        | some rest => tokenize fuel rest
        | none => none
      | _ => (tokenize fuel cs).map (fun ts => Tok.slash :: ts)
    else none

/-- Exact rational value: numerator and denominator, denominator nonzero
by construction, sign and common factors unnormalized. -/
abbrev Frac := Int × Int

def fneg (q : Frac) : Frac := (-q.1, q.2)

def fadd (a b : Frac) : Frac := (a.1 * b.2 + b.1 * a.2, a.2 * b.2)

def fsub (a b : Frac) : Frac := (a.1 * b.2 - b.1 * a.2, a.2 * b.2)

def fmul (a b : Frac) : Frac := (a.1 * b.1, a.2 * b.2)

/-- Division; a zero divisor is evaluation failure (JS produces Infinity
or NaN there, which the validator rejects through Number.isFinite). -/
def fdiv (a b : Frac) : Option Frac :=
  if b.1 = 0 then none else some (a.1 * b.2, a.2 * b.1)

/-- Exponentiation for an integer exponent; a fractional exponent (which
JS sends to Math.pow, never reachable in the concrete computations of
this file) and zero to a negative power are evaluation failure. -/
def fpow (b e : Frac) : Option Frac :=
  if e.1 % e.2 = 0 then
    let k := e.1 / e.2
    if 0 ≤ k then some (b.1 ^ k.toNat, b.2 ^ k.toNat)
    else if b.1 = 0 then none
    else some (b.2 ^ (-k).toNat, b.1 ^ (-k).toNat)
  else none

/-- Primary expression: a numeric literal. -/
def parsePrim : List Tok → Option (Frac × List Tok)
  | Tok.num n :: rest => some (((n : Int), 1), rest)
  | _ => none

/-- Unary expression: a chain of unary plus and minus signs over a
primary.  As in the JS grammar, the operand of a unary operator can
never contain a top-level exponentiation. -/
def parseUnary : Nat → List Tok → Option (Frac × List Tok)
  | 0, _ => none
  | fuel + 1, ts =>
    match ts with
    | Tok.plus :: rest => parseUnary fuel rest
    | Tok.minus :: rest =>
      match parseUnary fuel rest with
      | some (v, r2) => some (fneg v, r2)
      | none => none
    | _ => parsePrim ts

/-- Exponentiation expression: either a unary expression (which then
cannot be the base of **), or a literal base with a right-associative **
whose right side is again an exponentiation expression. -/
def parseExpo : Nat → List Tok → Option (Frac × List Tok)
  | 0, _ => none
  | fuel + 1, ts =>
    match ts with
    | Tok.plus :: _ => parseUnary fuel ts
    | Tok.minus :: _ => parseUnary fuel ts
    | Tok.num n :: Tok.pow2 :: rest =>
      match parseExpo fuel rest with
      | some (e, r2) =>
        match fpow ((n : Int), 1) e with
        | some v => some (v, r2)
        | none => none
      | none => none
    | _ => parsePrim ts

/-- Tail of a multiplicative chain, left associative. -/
def parseMulTail : Nat → Frac → List Tok → Option (Frac × List Tok)
  | 0, _, _ => none
  | fuel + 1, acc, ts =>
    match ts with
    | Tok.star :: rest =>
      match parseExpo fuel rest with
      | some (v, r2) => parseMulTail fuel (fmul acc v) r2
      | none => none
    | Tok.slash :: rest =>
      match parseExpo fuel rest with
      | some (v, r2) =>
        match fdiv acc v with
        | some q => parseMulTail fuel q r2
        | none => none
      | none => none
    | _ => some (acc, ts)

/-- Multiplicative expression. -/
def parseMul (fuel : Nat) (ts : List Tok) : Option (Frac × List Tok) :=
  match fuel with
  | 0 => none
  | fuel + 1 =>
    match parseExpo fuel ts with
    | some (v, r2) => parseMulTail fuel v r2
    | none => none

/-- Tail of an additive chain, left associative. -/
def parseAddTail : Nat → Frac → List Tok → Option (Frac × List Tok)
  | 0, _, _ => none
  | fuel + 1, acc, ts =>
    match ts with
    | Tok.plus :: rest =>
      match parseMul fuel rest with
      | some (v, r2) => parseAddTail fuel (fadd acc v) r2
      | none => none
    | Tok.minus :: rest =>
      match parseMul fuel rest with
      | some (v, r2) => parseAddTail fuel (fsub acc v) r2
      | none => none
    | _ => some (acc, ts)

/-- Additive expression, the start symbol of the fragment. -/
def parseAdd (fuel : Nat) (ts : List Tok) : Option (Frac × List Tok) :=
  match fuel with
  | 0 => none
  | fuel + 1 =>
    match parseMul fuel ts with
    | some (v, r2) => parseAddTail fuel v r2
    | none => none

/-- Evaluation of the left side, modelling Function with a return
statement: tokenize, parse a full expression, require that every token
was consumed. -/
def evalLeftExpr (left : List Char) : Option Frac :=
  match tokenize (left.length + 1) left with
  | some ts =>
    match parseAdd (4 * ts.length + 8) ts with
    | some (v, []) => some v
    | some (_, _ :: _) => none
    | none => none
  | none => none

/-- Value of a digit string, most significant first. -/
def digitsVal (l : List Char) : Nat :=
  l.foldl (fun acc c => acc * 10 + (c.toNat - 48)) 0

/-- The regex -?digits+ applied to the right side. -/
def rightSideMatches : List Char → Bool
  | '-' :: ds => !ds.isEmpty && ds.all Char.isDigit
  | ds => !ds.isEmpty && ds.all Char.isDigit

/-- parseInt applied to a right side already known to match -?digits+. -/
def parseIntRight : List Char → Int
  | '-' :: ds => -(digitsVal ds : Int)
  | ds => (digitsVal ds : Int)

/-- isValidEquation from src/app.js lines 887-932: length at least 5,
alphabet check, exactly one equals sign not at either end, right side an
optional minus then digits, left side not starting with star or slash,
left side evaluating exactly to the right side integer. -/
def isValidEquation (expr : List Char) : Bool :=
  if expr.length < 5 then false
  else if !(expr.all fun c => alphabet.contains c) then false
  else if !(expr.count '=' = 1 : Bool) then false
  else if expr.head? = some '=' || expr.getLast? = some '=' then false
  else
    let left := expr.takeWhile (fun c => !(c = '=' : Bool))
    let right := (expr.dropWhile (fun c => !(c = '=' : Bool))).drop 1
    if left.isEmpty || right.isEmpty then false
    else if !(rightSideMatches right) then false
    else if left.head? = some '*' || left.head? = some '/' then false
    else if !(left.all fun c => alphabet.contains c && !(c = '=' : Bool)) then false
    else
      match evalLeftExpr left with
      | some q => q.1 = parseIntRight right * q.2
      | none => false

/-- ConstraintSet as built by buildConstraintsFromGuesses and consumed by
generateCandidates: fixed characters per position, minimum and maximum
per-character occurrence counts, wholly excluded characters, and per
character the set of positions it may not occupy. -/
structure Constraints where
  greens : List (Option Char)
  requiredCounts : List (Char × Nat)
  maxCounts : List (Char × Nat)
  excluded : List Char
  yellowForbiddenPositions : List (Char × List Nat)
deriving DecidableEq

/-- Test whether position pos is forbidden for character ch, modelling
yellowForbiddenPositions[ch]?.has(pos). -/
def forbiddenHas (C : Constraints) (ch : Char) (pos : Nat) : Bool :=
  match alookup C.yellowForbiddenPositions ch with
  | some ps => ps.contains pos
  | none => false

/-- The truthiness-guarded max-count check of the source,
maxCounts[ch] and-also newUsed[ch] greater than maxCounts[ch]: an entry
equal to 0 is falsy in JS and disables the check. -/
def maxBlocks (C : Constraints) (ch : Char) (n : Nat) : Bool :=
  match alookup C.maxCounts ch with
  | some m => !(m = 0 : Bool) && (m < n : Bool)
  | none => false

/-- Bump the usage-count map at one character. -/
def usedAdd (u : Char → Nat) (c : Char) : Char → Nat :=
  fun d => if d = c then u d + 1 else u d

/-- The leaf check that every requiredCounts entry is met by the usage
tally. -/
def requiredMet (req : List (Char × Nat)) (used : Char → Nat) : Bool :=
  req.all fun e => e.2 ≤ used e.1

/-- Sum of the still-unsatisfied required occurrences, used by the
feasibility pruning. -/
def needMore (req : List (Char × Nat)) (used : Char → Nat) : Nat :=
  req.foldl (fun acc e => acc + (e.2 - used e.1)) 0

/-- Sum of the still-unsatisfied required occurrences of operator
characters, used by the equals-sign placement check. -/
def needOperators (C : Constraints) (used : Char → Nat) : Nat :=
  C.requiredCounts.foldl
    (fun acc e => if isOperator e.1 then acc + (e.2 - used e.1) else acc) 0

/-- The character preceding position pos in the string built so far,
modelling pos greater than 0 then current[pos - 1] else null. -/
def lastCharAt (current : List Char) (pos : Nat) : Option Char :=
  if pos = 0 then none else current[pos - 1]?

/-- True when the character before pos is one of the four operators. -/
def opBefore (current : List Char) (pos : Nat) : Bool :=
  match lastCharAt current pos with
  | some l => isOperator l
  | none => false

/-- The adjacency pruning of the free branch: an operator may not follow
an operator or the equals sign, except that a single minus may, and a
minus may never follow a minus. -/
def adjacencyBlocks (current : List Char) (pos : Nat) (ch : Char) : Bool :=
  isOperator ch &&
    (match lastCharAt current pos with
     | some l =>
       (isOperator l || l = '=') &&
         (!(ch = '-' : Bool) || (l = '-' && (ch = '-' : Bool)))
     | none => false)

/-- The equals-sign placement pruning of the free branch: not after an
operator, only one, not at either end, and only once no required
operator occurrence is still outstanding. -/
def equalsBlocks (C : Constraints) (L : Nat) (pos : Nat) (current : List Char)
    (used : Char → Nat) (hasEqual : Bool) (ch : Char) : Bool :=
  (ch = '=' : Bool) &&
    (opBefore current pos || hasEqual || (pos = 0 : Bool) || (pos = L - 1 : Bool) ||
      (0 < needOperators C used : Bool))

/-- The post-equals pruning: after the equals sign the characters star,
slash and plus are banned (a minus is allowed). -/
def postEqualBlocks (hasEqual : Bool) (ch : Char) : Bool :=
  hasEqual && ((ch = '*' : Bool) || (ch = '/' : Bool) || (ch = '+' : Bool))

/-- The feasibility pruning: after tentatively using ch, the unsatisfied
required occurrences must fit in the remaining free positions. -/
def feasBlocks (C : Constraints) (L : Nat) (pos : Nat) (used : Char → Nat)
    (ch : Char) : Bool :=
  L - pos - 1 < needMore C.requiredCounts (usedAdd used ch)

/-- All pruning rules of the free branch of the dfs, in source order;
true means the candidate character is skipped. -/
def skipChar (C : Constraints) (L : Nat) (pos : Nat) (current : List Char)
    (used : Char → Nat) (hasEqual : Bool) (ch : Char) : Bool :=
  adjacencyBlocks current pos ch ||
  equalsBlocks C L pos current used hasEqual ch ||
  postEqualBlocks hasEqual ch ||
  forbiddenHas C ch pos ||
  maxBlocks C ch (used ch + 1) ||
  feasBlocks C L pos used ch

/-- The candidate characters, the alphabet minus the excluded set. -/
def allowedChars (C : Constraints) : List Char :=
  alphabet.filter fun ch => !(C.excluded.contains ch)

/-- Mutable search state threaded through the dfs: the results list and
the dfsCallCount counter. -/
structure SState where
  results : List (List Char)
  calls : Nat
deriving DecidableEq

/-- One unfolding of the dfs body; recur stands for the recursive call at
the next position.  Mirrors src/app.js lines 1562-1737: counter bump,
cancellation check, result cap check, leaf acceptance (equals sign
present, validator, required counts), the fixed-position branch (equals
sign never directly after an operator, max-count check), and the loop
over allowed characters guarded by skipChar. -/
def dfsBody (C : Constraints) (L maxR : Nat) (sched : Nat → Bool)
    (recur : Nat → List Char → (Char → Nat) → Bool → SState → SState)
    (pos : Nat) (current : List Char) (used : Char → Nat) (hasEqual : Bool)
    (s : SState) : SState :=
  if sched (s.calls + 1) then ⟨s.results, s.calls + 1⟩
  else if maxR ≤ s.results.length then ⟨s.results, s.calls + 1⟩
  else if pos = L then
    if hasEqual = false then ⟨s.results, s.calls + 1⟩
    else if isValidEquation current = false then ⟨s.results, s.calls + 1⟩
    else if requiredMet C.requiredCounts used = false then ⟨s.results, s.calls + 1⟩
    else ⟨s.results ++ [current], s.calls + 1⟩
  else
    match C.greens.getD pos none with
    | some ch =>
      if ch = '=' ∧ opBefore current pos = true then ⟨s.results, s.calls + 1⟩
      else if maxBlocks C ch (usedAdd used ch ch) then ⟨s.results, s.calls + 1⟩
      else recur (pos + 1) (current ++ [ch]) (usedAdd used ch)
        (hasEqual || (ch = '=' : Bool)) ⟨s.results, s.calls + 1⟩
    | none =>
      (allowedChars C).foldl
        (fun st ch =>
          if skipChar C L pos current used hasEqual ch then st
          else recur (pos + 1) (current ++ [ch]) (usedAdd used ch)
            (hasEqual || (ch = '=' : Bool)) st)
        ⟨s.results, s.calls + 1⟩

/-- The dfs of generateCandidates.  The fuel argument is the structural
termination measure; it is always called with fuel equal to L - pos, so
the zero-fuel fallback (return with only the counter bumped) is never
taken at a non-leaf position. -/
def dfs (C : Constraints) (L maxR : Nat) (sched : Nat → Bool) :
    Nat → Nat → List Char → (Char → Nat) → Bool → SState → SState
  | 0 => dfsBody C L maxR sched (fun _ _ _ _ st => st)
  | fuel + 1 => dfsBody C L maxR sched (dfs C L maxR sched fuel)

/-- scoreCandidate from the source computes distinct-characters times 1.5
minus the operator count; we scale by 2 to stay in the integers, which
is order preserving and therefore induces the same sorted order. -/
def scoreCandidate2 (expr : List Char) : Int :=
  3 * (expr.dedup.length : Int) - 2 * ((expr.filter fun c => isOperator c).length : Int)

/-- generateCandidates from src/app.js lines 1530-1754 (the synchronous
version, with its default timeoutMs of 0 so the wall-clock timeout is
disabled): run the dfs from position 0 with empty state, then stable
sort the results by descending score (insertion sort with this relation
is stable, like the Array sort of the source).  The externally owned
cancellation flag is modelled by the schedule sched, giving its value as
read at the n-th dfs call. -/
def generateCandidates (C : Constraints) (length maxResults : Nat)
    (sched : Nat → Bool) : List (List Char) :=
  let run := dfs C length maxResults sched length 0 [] (fun _ => 0) false ⟨[], 0⟩
  run.results.insertionSort fun a b => scoreCandidate2 b ≤ scoreCandidate2 a

/-! The consistency checker, src/app.js lines 941-1024. -/

/-- The patterns argument of the checker and the builder: a single
feedback string, or the per-target array of the 4-target mode. -/
inductive PatternsArg where
  | single (p : List Char)
  | multi (ps : List (List Char))
deriving DecidableEq

/-- Array.isArray dispatch of the source: an array is replaced by its
first element (undefined, hence none, when the array is empty). -/
def resolvePatterns : PatternsArg → Option (List Char)
  | PatternsArg.single p => some p
  | PatternsArg.multi ps => ps.head?

/-- Structured rendering of the reason strings the checker returns. -/
inductive CheckErr where
  | lengthMismatch
  | fixedOther (i : Nat) (fixed : Char) (marked : Char)
  | fixedNotGreen (i : Nat) (c : Char)
  | excludedMarked (c : Char)
  | forbiddenGreen (c : Char) (i : Nat)
  | overMax (c : Char) (count : Nat) (m : Nat)
deriving DecidableEq

/-- Result of the checker: valid, or invalid with a reason. -/
inductive CheckResult where
  | ok
  | fail (e : CheckErr)
deriving DecidableEq

/-- The per-position checks of checkPatternConsistency, in source order:
a position fixed to another character must not be marked green here, a
position fixed to this character must be marked green, an excluded
character must not be marked green or yellow, a character forbidden at
this position must not be marked green (a yellow there is explicitly
allowed in this copy of the checker). -/
def posViolation (C : Constraints) (g p : List Char) (i : Nat) : Option CheckErr :=
  match g[i]?, p[i]? with
  | some ch, some color =>
    match C.greens.getD i none with
    | some f =>
      if f = ch then
        if color = 'g' then
          if ch ∈ C.excluded ∧ (color = 'g' ∨ color = 'y') then
            some (CheckErr.excludedMarked ch)
          else if forbiddenHas C ch i = true ∧ color = 'g' then
            some (CheckErr.forbiddenGreen ch i)
          else none
        else some (CheckErr.fixedNotGreen i ch)
      else
        if color = 'g' then some (CheckErr.fixedOther i f ch)
        else
          if ch ∈ C.excluded ∧ (color = 'g' ∨ color = 'y') then
            some (CheckErr.excludedMarked ch)
          else if forbiddenHas C ch i = true ∧ color = 'g' then
            some (CheckErr.forbiddenGreen ch i)
          else none
    | none =>
      if ch ∈ C.excluded ∧ (color = 'g' ∨ color = 'y') then
        some (CheckErr.excludedMarked ch)
      else if forbiddenHas C ch i = true ∧ color = 'g' then
        some (CheckErr.forbiddenGreen ch i)
      else none
  | _, _ => none

/-- Association-list update modelling assignment to a JS object key: an
existing entry is replaced in place, a new key is appended. -/
def aupd {β : Type} : List (Char × β) → Char → (β → β) → β → List (Char × β)
  | [], c, f, d => [(c, f d)]
  | e :: r, c, f, d => if e.1 = c then (c, f e.2) :: r else e :: aupd r c f d

/-- The green-or-yellow mark tally of the new guess, charCounts in the
source. -/
def charCountsGY (g p : List Char) : List (Char × Nat) :=
  (g.zip p).foldl
    (fun m e => if e.2 = 'g' ∨ e.2 = 'y' then aupd m e.1 (fun n => n + 1) 0 else m) []

/-- checkPatternConsistency: resolve the patterns argument (an empty or
length-mismatched pattern is rejected outright), return the first
per-position violation, then the first exceeded maxCounts entry, else
valid. -/
def checkPatternConsistency (guess : List Char) (patterns : PatternsArg)
    (C : Constraints) : CheckResult :=
  match resolvePatterns patterns with
  | none => CheckResult.fail CheckErr.lengthMismatch
  | some p =>
    if p.isEmpty || !(p.length = guess.length : Bool) then
      CheckResult.fail CheckErr.lengthMismatch
    else
      match (List.range guess.length).findSome? (posViolation C guess p) with
      | some e => CheckResult.fail e
      | none =>
        match (charCountsGY guess p).findSome? (fun e =>
            match alookup C.maxCounts e.1 with
            | some m => if m < e.2 then some (CheckErr.overMax e.1 e.2 m) else none
            | none => none) with
        | some e => CheckResult.fail e
        | none => CheckResult.ok

/-! The constraint builder, src/app.js lines 1032-1162. -/

/-- One history entry: the guess, its feedback, and the solved flag. -/
structure GuessRecord where
  guess : List Char
  patterns : PatternsArg
  solved : Bool
deriving DecidableEq

/-- Accumulator of the builder: the evolving greens array, excluded set
and forbidden positions, plus charRequirements and charMaxLimits, the
per-character lists of single-guess requirements and caps. -/
structure BuildAcc where
  greens : List (Option Char)
  excluded : List Char
  forb : List (Char × List Nat)
  charReq : List (Char × List Nat)
  charMax : List (Char × List Nat)
deriving DecidableEq

/-- Per-guess color statistics entry: green, yellow and gray counts. -/
abbrev Colors := Nat × Nat × Nat

/-- Bump one color tally according to the feedback character. -/
def bumpColor (t : Colors) (pc : Char) : Colors :=
  if pc = 'g' then (t.1 + 1, t.2.1, t.2.2)
  else if pc = 'y' then (t.1, t.2.1 + 1, t.2.2)
  else if pc = 'x' then (t.1, t.2.1, t.2.2 + 1)
  else t

/-- charColors of the source: per character of the guess, its green,
yellow and gray occurrence counts within this single guess. -/
def charColorsOf (g p : List Char) : List (Char × Colors) :=
  (g.zip p).foldl (fun m e => aupd m e.1 (fun t => bumpColor t e.2) (0, 0, 0)) []

/-- The per-character requirement of one guess: green plus yellow. -/
def reqOf (t : Colors) : Nat := t.1 + t.2.1

/-- One entry of the push loop of the builder.  The source first pushes
the requirement (green plus yellow, when positive) onto
charRequirements, then, when the character also received a gray in the
same guess, pushes the same count onto charMaxLimits; the two nested
conditional updates are flattened here into three cases with identical
effect. -/
def pushStep (a : BuildAcc) (e : Char × Colors) : BuildAcc :=
  if 0 < reqOf e.2 then
    if 0 < e.2.2.2 then
      ⟨a.greens, a.excluded, a.forb,
       aupd a.charReq e.1 (fun l => l ++ [reqOf e.2]) [],
       aupd a.charMax e.1 (fun l => l ++ [reqOf e.2]) []⟩
    else
      ⟨a.greens, a.excluded, a.forb,
       aupd a.charReq e.1 (fun l => l ++ [reqOf e.2]) [],
       a.charMax⟩
  else a

/-- The push loop of the builder over all characters of the guess. -/
def pushCounts (acc : BuildAcc) (cc : List (Char × Colors)) : BuildAcc :=
  cc.foldl pushStep acc

/-- Set-style element insert. -/
def addIfAbsent (l : List Char) (c : Char) : List Char :=
  if c ∈ l then l else l ++ [c]

/-- Add a forbidden position for a character. -/
def addForb (m : List (Char × List Nat)) (c : Char) (i : Nat) : List (Char × List Nat) :=
  aupd m c (fun l => if i ∈ l then l else l ++ [i]) []

/-- The placement loop of the builder, one indexed position: green fixes
the position, yellow forbids the character here, gray either wholly
excludes the character (no green or yellow of it in this guess) or
forbids it here. -/
def placeOne (cc : List (Char × Colors)) (acc : BuildAcc) (ie : Nat × Char × Char) :
    BuildAcc :=
  let i := ie.1
  let ch := ie.2.1
  let color := ie.2.2
  if color = 'g' then { acc with greens := acc.greens.set i (some ch) }
  else if color = 'y' then { acc with forb := addForb acc.forb ch i }
  else if color = 'x' then
    let t := (alookup cc ch).getD (0, 0, 0)
    if 0 < t.1 ∨ 0 < t.2.1 then { acc with forb := addForb acc.forb ch i }
    else { acc with excluded := addIfAbsent acc.excluded ch }
  else acc

/-- Index the guess-pattern pairs with their positions. -/
def indexedPairs (g p : List Char) : List (Nat × Char × Char) :=
  (g.zip p).enum

/-- Process one history record: skip solved records and records whose
resolved pattern is empty or has the wrong length, else tally the
colors, run the push loop, then the placement loop. -/
def processGuess (acc : BuildAcc) (rec : GuessRecord) : BuildAcc :=
  if rec.solved then acc
  else
    match resolvePatterns rec.patterns with
    | none => acc
    | some p =>
      if p.isEmpty || !(p.length = rec.guess.length : Bool) then acc
      else
        let cc := charColorsOf rec.guess p
        let acc1 := pushCounts acc cc
        (indexedPairs rec.guess p).foldl (placeOne cc) acc1

/-- Maximum of a list of naturals, Math.max over a nonempty pushed list. -/
def maxList (l : List Nat) : Nat := l.foldl max 0

/-- Minimum of a nonempty list of naturals, Math.min over a pushed list. -/
def minList : List Nat → Nat
  | [] => 0
  | h :: t => t.foldl min h

/-- buildConstraintsFromGuesses: fold the history, take the maximum
pushed requirement and the minimum pushed cap per character, subtract
the green-fixed occurrences from the requirements (floored at zero), and
drop from the excluded set every character that carries a positive
requirement or a fixed position. -/
def buildConstraintsFromGuesses (guesses : List GuessRecord) (length : Nat) :
    Constraints :=
  let acc0 : BuildAcc := ⟨List.replicate length none, [], [], [], []⟩
  let acc := guesses.foldl processGuess acc0
  let requiredCounts1 := acc.charReq.map fun e => (e.1, maxList e.2)
  let maxCounts := acc.charMax.map fun e => (e.1, minList e.2)
  let greenCount : Char → Nat := fun c => (acc.greens.filterMap id).count c
  let requiredCounts := requiredCounts1.map fun e => (e.1, e.2 - greenCount e.1)
  let excluded := acc.excluded.filter fun c =>
    match alookup requiredCounts c with
    | some v => !(0 < v ∨ 0 < greenCount c : Bool)
    | none => true
  ⟨acc.greens, requiredCounts, maxCounts, excluded, acc.forb⟩

/-! Concrete instances used by the claim theorems. -/

/-- A cancellation schedule that is never set. -/
def neverCancelled : Nat → Bool := fun _ => false

/-- Scenario B history: the single guess 2+2=4 with pattern x g x g x. -/
def scenarioBHistory : List GuessRecord :=
  [⟨['2', '+', '2', '=', '4'], PatternsArg.single ['x', 'g', 'x', 'g', 'x'], false⟩]

/-- The ConstraintSet built from the Scenario B history at length 5. -/
def scenarioBConstraints : Constraints := buildConstraintsFromGuesses scenarioBHistory 5

/-- The empty ConstraintSet. -/
def emptyConstraints : Constraints := ⟨[], [], [], [], []⟩

/-- A ConstraintSet whose fixed position 0 carries the character 3 even
though position 0 is forbidden for 3, and whose maxCounts entry for 3 is
the falsy 0; most characters are excluded to keep the search small. -/
def cex2Constraints : Constraints :=
  ⟨[some '3', none, none, none, none], [], [('3', 0)],
   ['4', '5', '6', '7', '8', '9', '+', '*', '/'], [('3', [0])]⟩

/-- A ConstraintSet that green-fixes the whole string 3-+2=1, placing the
operator + directly after the operator - by fixed positions. -/
def cex4Constraints : Constraints :=
  ⟨[some '3', some '-', some '+', some '2', some '=', some '1'], [], [], [], []⟩

/-- A ConstraintSet fixing 6*?2=-12 with position 2 free, so that the
search places a free minus directly after the fixed star. -/
def wit4Constraints : Constraints :=
  ⟨[some '6', some '*', none, some '2', some '=', some '-', some '1', some '2'],
   [], [], [], []⟩

/-- The two-guess history in which the character 3 is first grayed
everywhere and later marked yellow, exercising the excluded-set
correction of the builder. -/
def hist6Records : List GuessRecord :=
  [⟨['3', '3', '3', '3', '3'], PatternsArg.single ['x', 'x', 'x', 'x', 'x'], false⟩,
   ⟨['3', '1', '1', '1', '1'], PatternsArg.single ['y', 'x', 'x', 'x', 'x'], false⟩]

/-! Invariant predicates for the search soundness proofs. -/

/-- The per-character tally of a string. -/
def tallyOf (l : List Char) : Char → Nat := fun c => l.count c

/-- What the dfs guarantees about one position of a produced string: a
green-fixed position carries its fixed character; a free position avoids
the forbidden positions of its character and satisfies the adjacency
rule relative to its predecessor. -/
def PosOK (C : Constraints) (cur : List Char) (i : Nat) : Prop :=
  ∀ c, cur[i]? = some c →
    (∀ g, C.greens.getD i none = some g → c = g) ∧
    (C.greens.getD i none = none →
      forbiddenHas C c i = false ∧
      (isOperator c = true →
        ∀ l, lastCharAt cur i = some l →
          isOperator l = true ∨ l = '=' → c = '-' ∧ l ≠ '-'))

/-- PosOK at every position. -/
def AllPosOK (C : Constraints) (cur : List Char) : Prop :=
  ∀ i, PosOK C cur i

/-- Everything the search soundness theorem yields about a result. -/
def GoodResult (C : Constraints) (L : Nat) (r : List Char) : Prop :=
  r.length = L ∧ '=' ∈ r ∧ isValidEquation r = true ∧
  (∀ e ∈ C.requiredCounts, e.2 ≤ r.count e.1) ∧
  (∀ c m, alookup C.maxCounts c = some m → m ≠ 0 → r.count c ≤ m) ∧
  AllPosOK C r

/-- The invariant carried through the dfs recursion: the string built so
far has length pos, the usage map is its tally, the hasEqual flag
witnesses membership of the equals sign, and the per-position and
max-count facts hold of it. -/
def SearchInv (C : Constraints) (pos : Nat) (cur : List Char) (used : Char → Nat)
    (hasEqual : Bool) : Prop :=
  cur.length = pos ∧ used = tallyOf cur ∧ (hasEqual = true ↔ '=' ∈ cur) ∧
  AllPosOK C cur ∧
  (∀ c m, alookup C.maxCounts c = some m → m ≠ 0 → cur.count c ≤ m)

/-! Spec-side definitions for the aggregation claim about the builder.
Modelled from the spec wording so the builder output can be compared
against them. -/

/-- The resolved pattern of a record, empty when absent. -/
def patOf (rec : GuessRecord) : List Char := (resolvePatterns rec.patterns).getD []

/-- Green-plus-yellow occurrence count of a character within one guess. -/
def gyCountIn (rec : GuessRecord) (c : Char) : Nat :=
  ((rec.guess.zip (patOf rec)).filter fun e =>
    e.1 = c ∧ (e.2 = 'g' ∨ e.2 = 'y')).length

/-- Gray occurrence count of a character within one guess. -/
def grayCountIn (rec : GuessRecord) (c : Char) : Nat :=
  ((rec.guess.zip (patOf rec)).filter fun e => e.1 = c ∧ e.2 = 'x').length

/-- Modelled from the spec: the maximum single-guess green-plus-yellow
requirement observed for a character across the history. -/
def specGreenYellowMax (H : List GuessRecord) (c : Char) : Nat :=
  maxList (H.map fun rec => gyCountIn rec c)

/-- Modelled from the spec: the single-guess caps established for a
character, one per guess in which it received a gray alongside greens or
yellows. -/
def specCaps (H : List GuessRecord) (c : Char) : List Nat :=
  H.filterMap fun rec =>
    if 0 < grayCountIn rec c ∧ 0 < gyCountIn rec c then some (gyCountIn rec c)
    else none

/-- Number of fixed positions of a ConstraintSet assigned a character. -/
def greensAssigned (C : Constraints) (c : Char) : Nat :=
  (C.greens.filterMap id).count c

/-! Violation predicates for the consistency-checker claim, following
the list of violations in the claim. -/

/-- One position of the prospective guess violates the constraints. -/
def PosViol (C : Constraints) (g p : List Char) (i : Nat) : Prop :=
  ∃ ch color, g[i]? = some ch ∧ p[i]? = some color ∧
    ((∃ f, C.greens.getD i none = some f ∧ f ≠ ch ∧ color = 'g') ∨
     (C.greens.getD i none = some ch ∧ color ≠ 'g') ∨
     (ch ∈ C.excluded ∧ (color = 'g' ∨ color = 'y')) ∨
     (forbiddenHas C ch i = true ∧ color = 'g'))

/-- Green-or-yellow mark count of a character in the prospective guess. -/
def gyMarkCount (g p : List Char) (c : Char) : Nat :=
  ((g.zip p).filter fun e => e.1 = c ∧ (e.2 = 'g' ∨ e.2 = 'y')).length

/-- Some character is marked green or yellow more often than an existing
maxCounts entry allows. -/
def CountViol (C : Constraints) (g p : List Char) : Prop :=
  ∃ c m, alookup C.maxCounts c = some m ∧ m < gyMarkCount g p c

/-- A violation in the sense of the checker claim. -/
def CheckerViol (C : Constraints) (g p : List Char) : Prop :=
  (∃ i, i < g.length ∧ PosViol C g p i) ∨ CountViol C g p

/-! Further definitions used by the builder proofs. -/

/-- Keys of an association list. -/
def keysOf {β : Type} (m : List (Char × β)) : List Char := m.map Prod.fst

/-- Count of pairs with the given character and the given feedback
color. -/
def pairCount (zs : List (Char × Char)) (c col : Char) : Nat :=
  (zs.filter fun e => e.1 = c ∧ e.2 = col).length

/-- Add the color counts of a pair list onto a color triple. -/
def addColors (t : Colors) (zs : List (Char × Char)) (c : Char) : Colors :=
  (t.1 + pairCount zs c 'g', t.2.1 + pairCount zs c 'y', t.2.2 + pairCount zs c 'x')

/-- Combine an optional pushed list with a new suffix, creating the
entry when the suffix is nonempty. -/
def combineOpt (o : Option (List Nat)) (δ : List Nat) : Option (List Nat) :=
  match o with
  | some l => some (l ++ δ)
  | none => if δ = [] then none else some δ

/-- Contribution of one record to charRequirements at one character. -/
def reqDelta (rec : GuessRecord) (c : Char) : List Nat :=
  if 0 < gyCountIn rec c then [gyCountIn rec c] else []

/-- Contribution of one record to charMaxLimits at one character. -/
def capDelta (rec : GuessRecord) (c : Char) : List Nat :=
  if 0 < grayCountIn rec c ∧ 0 < gyCountIn rec c then [gyCountIn rec c] else []

/-- All charRequirements contributions of a history at one character. -/
def reqDeltas (H : List GuessRecord) (c : Char) : List Nat :=
  (H.map fun rec => reqDelta rec c).flatten

/-- All charMaxLimits contributions of a history at one character. -/
def capDeltas (H : List GuessRecord) (c : Char) : List Nat :=
  (H.map fun rec => capDelta rec c).flatten

/-- Folding a whole history through the builder accumulator. -/
def runBuild (H : List GuessRecord) (acc : BuildAcc) : BuildAcc :=
  H.foldl processGuess acc

/-- The records the aggregation claim quantifies over: non-solved, a
single pattern, of the same length as the guess. -/
def WellFormedRec (rec : GuessRecord) : Prop :=
  rec.solved = false ∧
    ∃ p, rec.patterns = PatternsArg.single p ∧ p.length = rec.guess.length

/-- The initial builder accumulator. -/
def accInit (length : Nat) : BuildAcc := ⟨List.replicate length none, [], [], [], []⟩

/-! Helper lemmas. -/

/-- A reflexive transitive relation preserved by every step of a fold is
preserved by the whole fold. -/
theorem foldl_rel {σ α : Type} (R : σ → σ → Prop) (hrefl : ∀ s, R s s)
    (htrans : ∀ a b c, R a b → R b c → R a c) (f : σ → α → σ) :
    ∀ l : List α, (∀ s c, c ∈ l → R s (f s c)) → ∀ s, R s (l.foldl f s)
  | [], _, s => hrefl s
  | c :: l, h, s =>
    htrans _ _ _ (h s c (by simp))
      (foldl_rel R hrefl htrans f l (fun s d hd => h s d (by simp [hd])) (f s c))

/-- A property preserved by every step of a fold is preserved by the
whole fold. -/
theorem foldl_preserve {σ α : Type} (P : σ → Prop) (f : σ → α → σ)
    (h : ∀ s a, P s → P (f s a)) :
    ∀ l : List α, ∀ s, P s → P (l.foldl f s)
  | [], _, hs => hs
  | a :: l, s, hs => foldl_preserve P f h l (f s a) (h s a hs)

/-- Lookup after an object-style update. -/
theorem alookup_aupd {β : Type} (m : List (Char × β)) (k : Char) (f : β → β)
    (d : β) (c : Char) :
    alookup (aupd m k f d) c =
      if k = c then some (f ((alookup m k).getD d)) else alookup m c := by
  induction m with
  | nil =>
    by_cases h : k = c <;> simp [aupd, alookup, h]
  | cons e r ih =>
    unfold aupd
    by_cases he : e.1 = k
    · rw [if_pos he]
      by_cases hc : k = c
      · subst hc
        simp [alookup, he]
      · have hec : ¬(e.1 = c) := by rw [he]; exact hc
        simp [alookup, hc, hec]
    · rw [if_neg he]
      by_cases hc : e.1 = c
      · have h1 : ¬(k = c) := fun h => he (hc.trans h.symm)
        simp [alookup, hc, h1]
      · simp [alookup, hc, he, ih]

/-- An update keeps an existing entry present. -/
theorem alookup_aupd_ne_none {β : Type} (m : List (Char × β)) (k : Char)
    (f : β → β) (d : β) (c : Char) (h : alookup m c ≠ none) :
    alookup (aupd m k f d) c ≠ none := by
  rw [alookup_aupd]
  by_cases hk : k = c <;> simp [hk, h]

/-- Keys after an update. -/
theorem keysOf_aupd {β : Type} (m : List (Char × β)) (k : Char) (f : β → β)
    (d : β) :
    keysOf (aupd m k f d) = if k ∈ keysOf m then keysOf m else keysOf m ++ [k] := by
  induction m with
  | nil => simp [aupd, keysOf]
  | cons e r ih =>
    unfold aupd
    by_cases he : e.1 = k
    · rw [if_pos he]
      simp [keysOf, he]
    · rw [if_neg he]
      have hke : ¬(k = e.1) := fun h => he h.symm
      have hstep : keysOf (e :: aupd r k f d) = e.1 :: keysOf (aupd r k f d) := rfl
      rw [hstep, ih]
      by_cases hk : k ∈ keysOf r
      · rw [if_pos hk, if_pos (show k ∈ keysOf (e :: r) from List.mem_cons.mpr (Or.inr hk))]
        rfl
      · rw [if_neg hk,
          if_neg (show k ∉ keysOf (e :: r) from by
            intro hx
            rcases List.mem_cons.mp hx with h | h
            · exact hke h
            · exact hk h)]
        rfl

/-- An update preserves distinctness of the keys. -/
theorem nodup_keysOf_aupd {β : Type} (m : List (Char × β)) (k : Char)
    (f : β → β) (d : β) (h : (keysOf m).Nodup) : (keysOf (aupd m k f d)).Nodup := by
  rw [keysOf_aupd]
  by_cases hk : k ∈ keysOf m
  · simpa [hk] using h
  · simp only [hk, if_false]
    rw [List.nodup_append]
    exact ⟨h, List.nodup_singleton k, by simpa using hk⟩

/-- The color-statistics accumulator has distinct keys. -/
theorem nodup_keysOf_charColorsOf (g p : List Char) :
    (keysOf (charColorsOf g p)).Nodup := by
  unfold charColorsOf
  refine foldl_preserve (fun m => (keysOf m).Nodup) _ ?_ (g.zip p) [] (by simp [keysOf])
  intro m e hm
  exact nodup_keysOf_aupd m e.1 _ _ hm

/-- A successful lookup comes from a member entry. -/
theorem alookup_mem {β : Type} (m : List (Char × β)) (c : Char) (v : β)
    (h : alookup m c = some v) : (c, v) ∈ m := by
  induction m with
  | nil => simp [alookup] at h
  | cons e r ih =>
    by_cases he : e.1 = c
    · rw [alookup, if_pos he] at h
      obtain rfl : e.2 = v := Option.some.inj h
      have hpair : (c, e.2) = e := by rw [← he]
      rw [hpair]
      exact List.mem_cons_self e r
    · rw [alookup, if_neg he] at h
      exact List.mem_cons_of_mem e (ih h)

/-- Under distinct keys, a member entry is what lookup returns. -/
theorem alookup_of_mem_nodup {β : Type} (m : List (Char × β)) (c : Char) (v : β)
    (hnd : (keysOf m).Nodup) (h : (c, v) ∈ m) : alookup m c = some v := by
  induction m with
  | nil => simp at h
  | cons e r ih =>
    rcases List.mem_cons.mp h with rfl | hmem
    · simp [alookup]
    · have hkey : c ∈ keysOf r := by
        unfold keysOf
        exact List.mem_map_of_mem Prod.fst hmem
      have hne : ¬(e.1 = c) := by
        intro hec
        rw [keysOf, List.map_cons, List.nodup_cons] at hnd
        exact hnd.1 (hec ▸ hkey)
      rw [alookup, if_neg hne]
      exact ih (by rw [keysOf, List.map_cons, List.nodup_cons] at hnd; exact hnd.2) hmem

/-- Count of matching pairs across a cons. -/
theorem pairCount_cons (e : Char × Char) (zs : List (Char × Char)) (c col : Char) :
    pairCount (e :: zs) c col =
      (if e.1 = c ∧ e.2 = col then 1 else 0) + pairCount zs c col := by
  unfold pairCount
  rw [List.filter_cons]
  by_cases h : e.1 = c ∧ e.2 = col <;> simp [h, Nat.add_comm]

/-- Bumping one pair and then adding the rest equals adding all. -/
theorem addColors_bump (t : Colors) (zs : List (Char × Char)) (c : Char)
    (e : Char × Char) (he : e.1 = c) :
    addColors (bumpColor t e.2) zs c = addColors t (e :: zs) c := by
  unfold addColors bumpColor
  by_cases hg : e.2 = 'g'
  · simp [pairCount_cons, he, hg, Prod.ext_iff]
    omega
  · by_cases hy : e.2 = 'y'
    · simp [pairCount_cons, he, hg, hy, Prod.ext_iff]
      omega
    · by_cases hx : e.2 = 'x'
      · simp [pairCount_cons, he, hg, hy, hx, Prod.ext_iff]
        omega
      · simp [pairCount_cons, he, hg, hy, hx, Prod.ext_iff]

/-- Pairs of a different character leave the counts unchanged. -/
theorem addColors_skip (t : Colors) (zs : List (Char × Char)) (c : Char)
    (e : Char × Char) (he : ¬(e.1 = c)) :
    addColors t (e :: zs) c = addColors t zs c := by
  unfold addColors
  simp [pairCount_cons, he]

/-- Lookup in the color-statistics fold. -/
theorem alookup_ccFold (zs : List (Char × Char)) (m : List (Char × Colors))
    (c : Char) :
    alookup (zs.foldl (fun m e => aupd m e.1 (fun t => bumpColor t e.2) (0, 0, 0)) m) c =
      match alookup m c with
      | some t => some (addColors t zs c)
      | none =>
        if c ∈ keysOf zs then some (addColors (0, 0, 0) zs c) else none := by
  induction zs generalizing m with
  | nil =>
    cases h : alookup m c <;> simp [h, addColors, pairCount, keysOf]
  | cons e zs ih =>
    rw [List.foldl_cons, ih, alookup_aupd]
    by_cases he : e.1 = c
    · rw [if_pos he, he]
      have hmem : c ∈ keysOf (e :: zs) := by
        unfold keysOf
        rw [List.map_cons, he]
        exact List.mem_cons_self c _
      cases h : alookup m c
      · simp only [h, Option.getD_none, if_pos hmem]
        rw [addColors_bump _ zs c e he]
      · rename_i t
        simp only [h, Option.getD_some]
        rw [addColors_bump _ zs c e he]
    · rw [if_neg he]
      have hmem : (c ∈ keysOf (e :: zs)) ↔ (c ∈ keysOf zs) := by
        unfold keysOf
        rw [List.map_cons, List.mem_cons]
        constructor
        · rintro (h | h)
          · exact absurd h.symm he
          · exact h
        · exact Or.inr
      cases h : alookup m c
      · simp only [h]
        rw [addColors_skip _ zs c e he]
        by_cases hk : c ∈ keysOf zs
        · rw [if_pos hk, if_pos (hmem.mpr hk)]
        · rw [if_neg hk, if_neg (fun hx => hk (hmem.mp hx))]
      · simp only [h]
        rw [addColors_skip _ zs c e he]

/-- Lookup in the per-guess color statistics. -/
theorem alookup_charColorsOf (g p : List Char) (c : Char) :
    alookup (charColorsOf g p) c =
      if c ∈ keysOf (g.zip p) then
        some (pairCount (g.zip p) c 'g', pairCount (g.zip p) c 'y',
          pairCount (g.zip p) c 'x')
      else none := by
  have := alookup_ccFold (g.zip p) [] c
  unfold charColorsOf
  rw [this]
  simp [alookup, addColors]

/-- A missing key looks up to nothing. -/
theorem alookup_eq_none_of_not_mem_keys {β : Type} (m : List (Char × β)) (c : Char)
    (h : c ∉ keysOf m) : alookup m c = none := by
  induction m with
  | nil => rfl
  | cons e r ih =>
    have h1 : ¬(e.1 = c) := by
      intro hx
      exact h (by unfold keysOf; rw [List.map_cons, hx]; exact List.mem_cons_self c _)
    rw [alookup, if_neg h1]
    exact ih (fun hx => h (by unfold keysOf at hx ⊢; rw [List.map_cons]; exact List.mem_cons_of_mem _ hx))

/-- A character that keys no pair of the list has a zero filtered
count. -/
theorem filter_len_zero_of_not_key (zs : List (Char × Char)) (c : Char)
    (P : Char × Char → Prop) [DecidablePred P] (h : c ∉ keysOf zs) :
    (zs.filter fun e => e.1 = c ∧ P e).length = 0 := by
  induction zs with
  | nil => rfl
  | cons e r ih =>
    have h1 : ¬(e.1 = c) := by
      intro hx
      exact h (by unfold keysOf; rw [List.map_cons, hx]; exact List.mem_cons_self c _)
    rw [List.filter_cons]
    have : ¬(e.1 = c ∧ P e) := fun hx => h1 hx.1
    simp only [this, decide_eq_true_eq, if_neg]
    exact ih (fun hx => h (by unfold keysOf at hx ⊢; rw [List.map_cons]; exact List.mem_cons_of_mem _ hx))

/-- Appending nothing combines to the original. -/
theorem combineOpt_nil (o : Option (List Nat)) : combineOpt o [] = o := by
  cases o <;> simp [combineOpt]

/-- Combining twice is combining the concatenation. -/
theorem combineOpt_assoc (o : Option (List Nat)) (d1 d2 : List Nat) :
    combineOpt (combineOpt o d1) d2 = combineOpt o (d1 ++ d2) := by
  cases o with
  | some l => simp [combineOpt]
  | none =>
    by_cases h1 : d1 = []
    · subst h1
      simp [combineOpt]
    · by_cases h2 : d2 = [] <;> simp [combineOpt, h1, h2]

/-- The push step never touches greens, excluded or forbidden. -/
theorem pushStep_others (a : BuildAcc) (e : Char × Colors) :
    (pushStep a e).greens = a.greens ∧ (pushStep a e).excluded = a.excluded ∧
      (pushStep a e).forb = a.forb := by
  unfold pushStep
  split_ifs <;> simp

/-- The push loop never touches greens, excluded or forbidden. -/
theorem pushCounts_others (acc : BuildAcc) (cc : List (Char × Colors)) :
    (pushCounts acc cc).greens = acc.greens ∧
      (pushCounts acc cc).excluded = acc.excluded ∧
      (pushCounts acc cc).forb = acc.forb := by
  unfold pushCounts
  refine foldl_preserve
    (fun a => a.greens = acc.greens ∧ a.excluded = acc.excluded ∧ a.forb = acc.forb)
    pushStep ?_ cc acc ⟨rfl, rfl, rfl⟩
  intro a e h
  obtain ⟨h1, h2, h3⟩ := pushStep_others a e
  exact ⟨h1.trans h.1, h2.trans h.2.1, h3.trans h.2.2⟩

/-- The push step keeps existing charRequirements entries present. -/
theorem pushStep_charReq_mono (a : BuildAcc) (e : Char × Colors) (c : Char)
    (h : alookup a.charReq c ≠ none) : alookup (pushStep a e).charReq c ≠ none := by
  unfold pushStep
  split_ifs <;> first
    | exact alookup_aupd_ne_none _ _ _ _ _ h
    | exact h

/-- The push loop keeps existing charRequirements entries present. -/
theorem pushCounts_charReq_mono (acc : BuildAcc) (cc : List (Char × Colors))
    (c : Char) (h : alookup acc.charReq c ≠ none) :
    alookup (pushCounts acc cc).charReq c ≠ none := by
  unfold pushCounts
  exact foldl_preserve (fun a => alookup a.charReq c ≠ none) pushStep
    (fun a e hh => pushStep_charReq_mono a e c hh) cc acc h

/-- Effect of the push loop on charRequirements lookup, given distinct
keys of the statistics list. -/
theorem pushCounts_charReq (cc : List (Char × Colors)) :
    (keysOf cc).Nodup → ∀ (acc : BuildAcc) (c : Char),
    alookup (pushCounts acc cc).charReq c =
      match alookup cc c with
      | some t =>
        if 0 < reqOf t then combineOpt (alookup acc.charReq c) [reqOf t]
        else alookup acc.charReq c
      | none => alookup acc.charReq c := by
  induction cc with
  | nil =>
    intro _ acc c
    simp [pushCounts, alookup]
  | cons e cc ih =>
    intro hnd acc c
    have hnd2 : (keysOf cc).Nodup := by
      unfold keysOf at hnd ⊢
      rw [List.map_cons, List.nodup_cons] at hnd
      exact hnd.2
    have hnotin : e.1 ∉ keysOf cc := by
      unfold keysOf at hnd ⊢
      rw [List.map_cons, List.nodup_cons] at hnd
      exact hnd.1
    have hfold : pushCounts acc (e :: cc) = pushCounts (pushStep acc e) cc := rfl
    rw [hfold, ih hnd2]
    by_cases hec : e.1 = c
    · have hcc : alookup cc c = none :=
        alookup_eq_none_of_not_mem_keys cc c (hec ▸ hnotin)
      rw [hcc]
      have hlook : alookup (e :: cc) c = some e.2 := by
        rw [alookup, if_pos hec]
      rw [hlook]
      dsimp only
      by_cases hreq : 0 < reqOf e.2
      · rw [if_pos hreq]
        unfold pushStep
        rw [if_pos hreq]
        by_cases hgray : 0 < e.2.2.2
        · rw [if_pos hgray]
          show alookup (aupd acc.charReq e.1 _ _) c = _
          rw [alookup_aupd, if_pos hec, ← hec]
          cases hl : alookup acc.charReq e.1 <;> simp [hl, combineOpt]
        · rw [if_neg hgray]
          show alookup (aupd acc.charReq e.1 _ _) c = _
          rw [alookup_aupd, if_pos hec, ← hec]
          cases hl : alookup acc.charReq e.1 <;> simp [hl, combineOpt]
      · rw [if_neg hreq]
        unfold pushStep
        rw [if_neg hreq]
    · have hlook : alookup (e :: cc) c = alookup cc c := by
        rw [alookup, if_neg hec]
      rw [hlook]
      have hsame : alookup (pushStep acc e).charReq c = alookup acc.charReq c := by
        unfold pushStep
        split_ifs <;> first
          | (show alookup (aupd acc.charReq e.1 _ _) c = _
             rw [alookup_aupd, if_neg hec])
          | rfl
      simp only [hsame]

/-- Effect of the push loop on charMaxLimits lookup, given distinct keys
of the statistics list. -/
theorem pushCounts_charMax (cc : List (Char × Colors)) :
    (keysOf cc).Nodup → ∀ (acc : BuildAcc) (c : Char),
    alookup (pushCounts acc cc).charMax c =
      match alookup cc c with
      | some t =>
        if 0 < t.2.2 ∧ 0 < reqOf t then combineOpt (alookup acc.charMax c) [reqOf t]
        else alookup acc.charMax c
      | none => alookup acc.charMax c := by
  induction cc with
  | nil =>
    intro _ acc c
    simp [pushCounts, alookup]
  | cons e cc ih =>
    intro hnd acc c
    have hnd2 : (keysOf cc).Nodup := by
      unfold keysOf at hnd ⊢
      rw [List.map_cons, List.nodup_cons] at hnd
      exact hnd.2
    have hnotin : e.1 ∉ keysOf cc := by
      unfold keysOf at hnd ⊢
      rw [List.map_cons, List.nodup_cons] at hnd
      exact hnd.1
    have hfold : pushCounts acc (e :: cc) = pushCounts (pushStep acc e) cc := rfl
    rw [hfold, ih hnd2]
    by_cases hec : e.1 = c
    · have hcc : alookup cc c = none :=
        alookup_eq_none_of_not_mem_keys cc c (hec ▸ hnotin)
      rw [hcc]
      have hlook : alookup (e :: cc) c = some e.2 := by
        rw [alookup, if_pos hec]
      rw [hlook]
      dsimp only
      by_cases hreq : 0 < reqOf e.2
      · by_cases hgray : 0 < e.2.2.2
        · rw [if_pos ⟨hgray, hreq⟩]
          unfold pushStep
          rw [if_pos hreq, if_pos hgray]
          show alookup (aupd acc.charMax e.1 _ _) c = _
          rw [alookup_aupd, if_pos hec, ← hec]
          cases hl : alookup acc.charMax e.1 <;> simp [hl, combineOpt]
        · rw [if_neg (fun hx => hgray hx.1)]
          unfold pushStep
          rw [if_pos hreq, if_neg hgray]
      · rw [if_neg (fun hx => hreq hx.2)]
        unfold pushStep
        rw [if_neg hreq]
    · have hlook : alookup (e :: cc) c = alookup cc c := by
        rw [alookup, if_neg hec]
      rw [hlook]
      have hsame : alookup (pushStep acc e).charMax c = alookup acc.charMax c := by
        unfold pushStep
        split_ifs <;> first
          | (show alookup (aupd acc.charMax e.1 _ _) c = _
             rw [alookup_aupd, if_neg hec])
          | rfl
      simp only [hsame]

/-- The placement loop never touches charRequirements or
charMaxLimits. -/
theorem placeOne_counts (cc : List (Char × Colors)) (acc : BuildAcc)
    (ie : Nat × Char × Char) :
    (placeOne cc acc ie).charReq = acc.charReq ∧
      (placeOne cc acc ie).charMax = acc.charMax := by
  unfold placeOne
  dsimp only
  split_ifs <;> simp

/-- The whole placement fold never touches charRequirements or
charMaxLimits. -/
theorem placeFold_counts (cc : List (Char × Colors))
    (ies : List (Nat × Char × Char)) (acc : BuildAcc) :
    (ies.foldl (placeOne cc) acc).charReq = acc.charReq ∧
      (ies.foldl (placeOne cc) acc).charMax = acc.charMax :=
  foldl_preserve (fun a => a.charReq = acc.charReq ∧ a.charMax = acc.charMax)
    (placeOne cc)
    (fun a ie h =>
      ⟨((placeOne_counts cc a ie).1).trans h.1,
       ((placeOne_counts cc a ie).2).trans h.2⟩)
    ies acc ⟨rfl, rfl⟩

/-- Cons step of the green-or-yellow filter length. -/
theorem gyFilter_cons (e : Char × Char) (zs : List (Char × Char)) (c : Char) :
    ((e :: zs).filter fun x => x.1 = c ∧ (x.2 = 'g' ∨ x.2 = 'y')).length =
      (if e.1 = c ∧ (e.2 = 'g' ∨ e.2 = 'y') then 1 else 0) +
        (zs.filter fun x => x.1 = c ∧ (x.2 = 'g' ∨ x.2 = 'y')).length := by
  rw [List.filter_cons]
  by_cases h : e.1 = c ∧ (e.2 = 'g' ∨ e.2 = 'y') <;> simp [h, Nat.add_comm]

/-- Splitting the green-or-yellow filter into the two color counts. -/
theorem gy_split (zs : List (Char × Char)) (c : Char) :
    (zs.filter fun e => e.1 = c ∧ (e.2 = 'g' ∨ e.2 = 'y')).length =
      pairCount zs c 'g' + pairCount zs c 'y' := by
  induction zs with
  | nil => rfl
  | cons e zs ih =>
    rw [gyFilter_cons, pairCount_cons, pairCount_cons, ih]
    by_cases h1 : e.1 = c
    · by_cases hg : e.2 = 'g'
      · have hy : ¬(e.2 = 'y') := by rw [hg]; decide
        rw [if_pos ⟨h1, Or.inl hg⟩, if_pos ⟨h1, hg⟩, if_neg (fun hx => hy hx.2)]
        omega
      · by_cases hy2 : e.2 = 'y'
        · rw [if_pos ⟨h1, Or.inr hy2⟩, if_neg (fun hx => hg hx.2),
            if_pos ⟨h1, hy2⟩]
          omega
        · rw [if_neg (fun hx => hx.2.elim hg hy2), if_neg (fun hx => hg hx.2),
            if_neg (fun hx => hy2 hx.2)]
          omega
    · rw [if_neg (fun hx => h1 hx.1), if_neg (fun hx => h1 hx.1),
        if_neg (fun hx => h1 hx.1)]
      omega

/-- Effect of one processed record on charRequirements lookup. -/
theorem processGuess_charReq (rec : GuessRecord) (hwf : WellFormedRec rec)
    (acc : BuildAcc) (c : Char) :
    alookup (processGuess acc rec).charReq c =
      combineOpt (alookup acc.charReq c) (reqDelta rec c) := by
  obtain ⟨hsolved, p, hp, hlen⟩ := hwf
  have hpat : patOf rec = p := by rw [patOf, hp]; rfl
  unfold processGuess
  rw [if_neg (by rw [hsolved]; exact Bool.false_ne_true), hp]
  dsimp only [resolvePatterns]
  by_cases hpe : p.isEmpty = true
  · rw [if_pos (by simp [hpe])]
    have hpnil : p = [] := List.isEmpty_iff.mp hpe
    have hgy : gyCountIn rec c = 0 := by
      unfold gyCountIn
      rw [hpat, hpnil]
      simp
    rw [reqDelta, if_neg (by omega), combineOpt_nil]
  · rw [if_neg (by simp [hpe, hlen])]
    rw [(placeFold_counts (charColorsOf rec.guess p) (indexedPairs rec.guess p)
      (pushCounts acc (charColorsOf rec.guess p))).1]
    rw [pushCounts_charReq (charColorsOf rec.guess p)
      (nodup_keysOf_charColorsOf rec.guess p) acc c]
    rw [alookup_charColorsOf]
    by_cases hk : c ∈ keysOf (rec.guess.zip p)
    · rw [if_pos hk]
      dsimp only
      have hgy : gyCountIn rec c =
          pairCount (rec.guess.zip p) c 'g' + pairCount (rec.guess.zip p) c 'y' := by
        unfold gyCountIn
        rw [hpat]
        exact gy_split _ c
      have hreqof : reqOf (pairCount (rec.guess.zip p) c 'g',
          pairCount (rec.guess.zip p) c 'y', pairCount (rec.guess.zip p) c 'x') =
          gyCountIn rec c := by
        unfold reqOf
        rw [hgy]
      rw [hreqof]
      unfold reqDelta
      by_cases hpos : 0 < gyCountIn rec c
      · rw [if_pos hpos, if_pos hpos]
      · rw [if_neg hpos, if_neg hpos, combineOpt_nil]
    · rw [if_neg hk]
      dsimp only
      have hgy : gyCountIn rec c = 0 := by
        unfold gyCountIn
        rw [hpat]
        exact filter_len_zero_of_not_key _ c _ hk
      rw [reqDelta, if_neg (by omega), combineOpt_nil]

/-- Effect of one processed record on charMaxLimits lookup. -/
theorem processGuess_charMax (rec : GuessRecord) (hwf : WellFormedRec rec)
    (acc : BuildAcc) (c : Char) :
    alookup (processGuess acc rec).charMax c =
      combineOpt (alookup acc.charMax c) (capDelta rec c) := by
  obtain ⟨hsolved, p, hp, hlen⟩ := hwf
  have hpat : patOf rec = p := by rw [patOf, hp]; rfl
  unfold processGuess
  rw [if_neg (by rw [hsolved]; exact Bool.false_ne_true), hp]
  dsimp only [resolvePatterns]
  by_cases hpe : p.isEmpty = true
  · rw [if_pos (by simp [hpe])]
    have hpnil : p = [] := List.isEmpty_iff.mp hpe
    have hgy : gyCountIn rec c = 0 := by
      unfold gyCountIn
      rw [hpat, hpnil]
      simp
    rw [capDelta, if_neg (by omega), combineOpt_nil]
  · rw [if_neg (by simp [hpe, hlen])]
    rw [(placeFold_counts (charColorsOf rec.guess p) (indexedPairs rec.guess p)
      (pushCounts acc (charColorsOf rec.guess p))).2]
    rw [pushCounts_charMax (charColorsOf rec.guess p)
      (nodup_keysOf_charColorsOf rec.guess p) acc c]
    rw [alookup_charColorsOf]
    have hgray : grayCountIn rec c = pairCount (rec.guess.zip p) c 'x' := by
      unfold grayCountIn pairCount
      rw [hpat]
    have hgy : gyCountIn rec c =
        pairCount (rec.guess.zip p) c 'g' + pairCount (rec.guess.zip p) c 'y' := by
      unfold gyCountIn
      rw [hpat]
      exact gy_split _ c
    by_cases hk : c ∈ keysOf (rec.guess.zip p)
    · rw [if_pos hk]
      dsimp only
      unfold capDelta
      have hre : reqOf (pairCount (rec.guess.zip p) c 'g',
          pairCount (rec.guess.zip p) c 'y', pairCount (rec.guess.zip p) c 'x') =
          gyCountIn rec c := by
        unfold reqOf
        exact hgy.symm
      by_cases hcond : 0 < grayCountIn rec c ∧ 0 < gyCountIn rec c
      · have hc2 : 0 < pairCount (rec.guess.zip p) c 'x' := by
          rw [← hgray]
          exact hcond.1
        have hc3 : 0 < reqOf (pairCount (rec.guess.zip p) c 'g',
            pairCount (rec.guess.zip p) c 'y', pairCount (rec.guess.zip p) c 'x') := by
          rw [hre]
          exact hcond.2
        rw [if_pos ⟨hc2, hc3⟩, if_pos hcond, hre]
      · rw [if_neg (fun hx => hcond ⟨by rw [hgray]; exact hx.1, by rw [← hre]; exact hx.2⟩),
          if_neg hcond, combineOpt_nil]
    · rw [if_neg hk]
      dsimp only
      have hgy0 : gyCountIn rec c = 0 := by
        unfold gyCountIn
        rw [hpat]
        exact filter_len_zero_of_not_key _ c _ hk
      rw [capDelta, if_neg (by omega), combineOpt_nil]

/-- Effect of the whole history on charRequirements lookup. -/
theorem runBuild_charReq (H : List GuessRecord)
    (hwf : ∀ rec ∈ H, WellFormedRec rec) :
    ∀ (acc : BuildAcc) (c : Char),
      alookup (runBuild H acc).charReq c =
        combineOpt (alookup acc.charReq c) (reqDeltas H c) := by
  induction H with
  | nil =>
    intro acc c
    rw [runBuild, List.foldl_nil, reqDeltas, List.map_nil, List.flatten_nil,
      combineOpt_nil]
  | cons rec H ih =>
    intro acc c
    have h1 : WellFormedRec rec := hwf rec (List.mem_cons_self rec H)
    have h2 : ∀ r ∈ H, WellFormedRec r := fun r hr => hwf r (List.mem_cons_of_mem rec hr)
    have hfold : runBuild (rec :: H) acc = runBuild H (processGuess acc rec) := rfl
    rw [hfold, ih h2, processGuess_charReq rec h1 acc c, combineOpt_assoc]
    have : reqDeltas (rec :: H) c = reqDelta rec c ++ reqDeltas H c := by
      rw [reqDeltas, List.map_cons, List.flatten_cons]
      rfl
    rw [this]

/-- Effect of the whole history on charMaxLimits lookup. -/
theorem runBuild_charMax (H : List GuessRecord)
    (hwf : ∀ rec ∈ H, WellFormedRec rec) :
    ∀ (acc : BuildAcc) (c : Char),
      alookup (runBuild H acc).charMax c =
        combineOpt (alookup acc.charMax c) (capDeltas H c) := by
  induction H with
  | nil =>
    intro acc c
    rw [runBuild, List.foldl_nil, capDeltas, List.map_nil, List.flatten_nil,
      combineOpt_nil]
  | cons rec H ih =>
    intro acc c
    have h1 : WellFormedRec rec := hwf rec (List.mem_cons_self rec H)
    have h2 : ∀ r ∈ H, WellFormedRec r := fun r hr => hwf r (List.mem_cons_of_mem rec hr)
    have hfold : runBuild (rec :: H) acc = runBuild H (processGuess acc rec) := rfl
    rw [hfold, ih h2, processGuess_charMax rec h1 acc c, combineOpt_assoc]
    have : capDeltas (rec :: H) c = capDelta rec c ++ capDeltas H c := by
      rw [capDeltas, List.map_cons, List.flatten_cons]
      rfl
    rw [this]

/-- Folding max over a list with an arbitrary start. -/
theorem foldl_max_acc (l : List Nat) : ∀ a : Nat, l.foldl max a = max a (l.foldl max 0) := by
  induction l with
  | nil =>
    intro a
    simp
  | cons b l ih =>
    intro a
    rw [List.foldl_cons, List.foldl_cons, ih (max a b), ih (max 0 b)]
    simp [Nat.max_assoc]

/-- Cons step of the list maximum. -/
theorem maxList_cons (a : Nat) (l : List Nat) : maxList (a :: l) = max a (maxList l) := by
  unfold maxList
  rw [List.foldl_cons, foldl_max_acc]
  simp

/-- The maximum of the pushed requirement lists equals the spec-side
maximum over all guesses. -/
theorem maxList_reqDeltas (H : List GuessRecord) (c : Char) :
    maxList (reqDeltas H c) = specGreenYellowMax H c := by
  induction H with
  | nil => rfl
  | cons rec H ih =>
    have h1 : reqDeltas (rec :: H) c = reqDelta rec c ++ reqDeltas H c := by
      rw [reqDeltas, List.map_cons, List.flatten_cons]
      rfl
    have h2 : specGreenYellowMax (rec :: H) c =
        max (gyCountIn rec c) (specGreenYellowMax H c) := by
      rw [specGreenYellowMax, List.map_cons, maxList_cons]
      rfl
    rw [h1, h2, reqDelta]
    by_cases hpos : 0 < gyCountIn rec c
    · rw [if_pos hpos, List.cons_append, List.nil_append, maxList_cons, ih]
    · rw [if_neg hpos, List.nil_append, ih]
      have : gyCountIn rec c = 0 := by omega
      rw [this]
      simp

/-- The pushed requirement lists are empty exactly when the spec-side
maximum vanishes. -/
theorem reqDeltas_nil_iff (H : List GuessRecord) (c : Char) :
    reqDeltas H c = [] ↔ specGreenYellowMax H c = 0 := by
  induction H with
  | nil => simp [reqDeltas, specGreenYellowMax, maxList]
  | cons rec H ih =>
    have h1 : reqDeltas (rec :: H) c = reqDelta rec c ++ reqDeltas H c := by
      rw [reqDeltas, List.map_cons, List.flatten_cons]
      rfl
    have h2 : specGreenYellowMax (rec :: H) c =
        max (gyCountIn rec c) (specGreenYellowMax H c) := by
      rw [specGreenYellowMax, List.map_cons, maxList_cons]
      rfl
    rw [h1, h2, reqDelta]
    by_cases hpos : 0 < gyCountIn rec c
    · rw [if_pos hpos]
      constructor
      · intro h
        exact absurd h (by simp)
      · intro h
        omega
    · rw [if_neg hpos, List.nil_append, ih]
      omega

/-- The pushed cap lists are the spec-side caps. -/
theorem capDeltas_eq_specCaps (H : List GuessRecord) (c : Char) :
    capDeltas H c = specCaps H c := by
  induction H with
  | nil => rfl
  | cons rec H ih =>
    have h1 : capDeltas (rec :: H) c = capDelta rec c ++ capDeltas H c := by
      rw [capDeltas, List.map_cons, List.flatten_cons]
      rfl
    rw [h1, ih]
    by_cases hcond : 0 < grayCountIn rec c ∧ 0 < gyCountIn rec c
    · have h2 : specCaps (rec :: H) c = gyCountIn rec c :: specCaps H c := by
        rw [specCaps, List.filterMap_cons, if_pos hcond]
        rfl
      rw [h2, capDelta, if_pos hcond]
      rfl
    · have h2 : specCaps (rec :: H) c = specCaps H c := by
        rw [specCaps, List.filterMap_cons, if_neg hcond]
        rfl
      rw [h2, capDelta, if_neg hcond, List.nil_append]

/-- Lookup through a key-dependent value map. -/
theorem alookup_map_key {β γ : Type} (m : List (Char × β)) (f : Char → β → γ)
    (c : Char) :
    alookup (m.map fun e => (e.1, f e.1 e.2)) c = (alookup m c).map (f c) := by
  induction m with
  | nil => rfl
  | cons e r ih =>
    by_cases he : e.1 = c
    · rw [List.map_cons]
      show (if e.1 = c then some (f e.1 e.2) else _) = _
      rw [if_pos he, alookup, if_pos he, he]
      rfl
    · rw [List.map_cons]
      show (if e.1 = c then some (f e.1 e.2)
        else alookup (r.map fun e => (e.1, f e.1 e.2)) c) = _
      rw [if_neg he, ih, alookup, if_neg he]

/-- The requiredCounts of the built constraints, unfolded. -/
theorem build_requiredCounts (H : List GuessRecord) (L : Nat) :
    (buildConstraintsFromGuesses H L).requiredCounts =
      ((runBuild H (accInit L)).charReq.map fun e => (e.1, maxList e.2)).map
        fun e => (e.1, e.2 - ((runBuild H (accInit L)).greens.filterMap id).count e.1) :=
  rfl

/-- The maxCounts of the built constraints, unfolded. -/
theorem build_maxCounts (H : List GuessRecord) (L : Nat) :
    (buildConstraintsFromGuesses H L).maxCounts =
      (runBuild H (accInit L)).charMax.map fun e => (e.1, minList e.2) := rfl

/-- The greens of the built constraints, unfolded. -/
theorem build_greens (H : List GuessRecord) (L : Nat) :
    (buildConstraintsFromGuesses H L).greens = (runBuild H (accInit L)).greens := rfl

/-- The excluded set of the built constraints, unfolded. -/
theorem build_excluded (H : List GuessRecord) (L : Nat) :
    (buildConstraintsFromGuesses H L).excluded =
      (runBuild H (accInit L)).excluded.filter fun d =>
        match alookup (buildConstraintsFromGuesses H L).requiredCounts d with
        | some v =>
          !(0 < v ∨ 0 < ((runBuild H (accInit L)).greens.filterMap id).count d : Bool)
        | none => true := rfl

/-- A member of a list with one position overwritten was in the list or
is the written value. -/
theorem mem_set_origin {α : Type} :
    ∀ (l : List α) (n : Nat) (b a : α), a ∈ l.set n b → a ∈ l ∨ a = b
  | [], _, _, _, h => absurd h (by simp)
  | x :: xs, 0, b, a, h => by
    rw [List.set_cons_zero] at h
    rcases List.mem_cons.mp h with rfl | h
    · exact Or.inr rfl
    · exact Or.inl (List.mem_cons_of_mem x h)
  | x :: xs, n + 1, b, a, h => by
    rw [List.set_cons_succ] at h
    rcases List.mem_cons.mp h with rfl | h
    · exact Or.inl (List.mem_cons_self _ _)
    · rcases mem_set_origin xs n b a h with h | h
      · exact Or.inl (List.mem_cons_of_mem x h)
      · exact Or.inr h

/-- A new fixed character placed by one placement step was green in this
guess. -/
theorem placeOne_greens_origin (cc : List (Char × Colors)) (acc : BuildAcc)
    (ie : Nat × Char × Char) (c : Char)
    (h : some c ∈ (placeOne cc acc ie).greens) :
    some c ∈ acc.greens ∨ (ie.2.2 = 'g' ∧ ie.2.1 = c) := by
  unfold placeOne at h
  dsimp only at h
  split_ifs at h with h1 h2 h3 h4
  · rcases mem_set_origin _ _ _ _ h with h | h
    · exact Or.inl h
    · exact Or.inr ⟨h1, (Option.some.inj h).symm⟩
  · exact Or.inl h
  · exact Or.inl h
  · exact Or.inl h
  · exact Or.inl h

/-- A new fixed character placed by the placement fold was green in this
guess. -/
theorem placeFold_greens_origin (cc : List (Char × Colors)) :
    ∀ (ies : List (Nat × Char × Char)) (acc : BuildAcc) (c : Char),
      some c ∈ (ies.foldl (placeOne cc) acc).greens →
      some c ∈ acc.greens ∨ ∃ ie ∈ ies, ie.2.2 = 'g' ∧ ie.2.1 = c
  | [], acc, c, h => Or.inl h
  | ie :: ies, acc, c, h => by
    rcases placeFold_greens_origin cc ies (placeOne cc acc ie) c h with h | ⟨je, hje, hg, hc⟩
    · rcases placeOne_greens_origin cc acc ie c h with h | ⟨hg, hc⟩
      · exact Or.inl h
      · exact Or.inr ⟨ie, List.mem_cons_self ie ies, hg, hc⟩
    · exact Or.inr ⟨je, List.mem_cons_of_mem ie hje, hg, hc⟩

/-- The second component of an enumerated entry is in the list. -/
theorem mem_enum_snd {α : Type} (l : List α) (ie : Nat × α) (h : ie ∈ l.enum) :
    ie.2 ∈ l := by
  have h2 : ie.2 ∈ l.enum.map Prod.snd := List.mem_map_of_mem Prod.snd h
  rwa [List.enum_map_snd] at h2

/-- Processing one record preserves the invariant that every fixed
character has a charRequirements entry. -/
theorem processGuess_greens_inv (rec : GuessRecord) (acc : BuildAcc)
    (hinv : ∀ c, some c ∈ acc.greens → alookup acc.charReq c ≠ none) :
    ∀ c, some c ∈ (processGuess acc rec).greens →
      alookup (processGuess acc rec).charReq c ≠ none := by
  intro c hc
  unfold processGuess at hc ⊢
  by_cases hs : rec.solved = true
  · rw [if_pos hs] at hc ⊢
    exact hinv c hc
  · rw [if_neg hs] at hc ⊢
    cases hrp : resolvePatterns rec.patterns with
    | none =>
      simp only [hrp] at hc ⊢
      exact hinv c hc
    | some p =>
      simp only [hrp] at hc ⊢
      by_cases hguard : (p.isEmpty || !(p.length = rec.guess.length : Bool)) = true
      · rw [if_pos hguard] at hc ⊢
        exact hinv c hc
      · rw [if_neg hguard] at hc ⊢
        rw [(placeFold_counts (charColorsOf rec.guess p) (indexedPairs rec.guess p)
          (pushCounts acc (charColorsOf rec.guess p))).1]
        rcases placeFold_greens_origin (charColorsOf rec.guess p)
            (indexedPairs rec.guess p) (pushCounts acc (charColorsOf rec.guess p))
            c hc with h | ⟨ie, hie, hg, hch⟩
        · rw [(pushCounts_others acc (charColorsOf rec.guess p)).1] at h
          exact pushCounts_charReq_mono acc (charColorsOf rec.guess p) c (hinv c h)
        · have hzip : (c, 'g') ∈ rec.guess.zip p := by
            have h2 : ie.2 ∈ rec.guess.zip p := mem_enum_snd _ ie hie
            have h3 : ie.2 = (c, 'g') := by
              have h4 : ie.2 = (ie.2.1, ie.2.2) := rfl
              rw [h4, hch, hg]
            rwa [h3] at h2
          have hkey : c ∈ keysOf (rec.guess.zip p) := by
            unfold keysOf
            exact List.mem_map_of_mem Prod.fst hzip
          have hgpos : 0 < pairCount (rec.guess.zip p) c 'g' := by
            unfold pairCount
            have hmemf : (c, 'g') ∈ (rec.guess.zip p).filter
                fun e => e.1 = c ∧ e.2 = 'g' :=
              List.mem_filter.mpr ⟨hzip, by simp⟩
            exact List.length_pos_of_mem hmemf
          have hlook := alookup_charColorsOf rec.guess p c
          rw [if_pos hkey] at hlook
          rw [pushCounts_charReq (charColorsOf rec.guess p)
            (nodup_keysOf_charColorsOf rec.guess p) acc c, hlook]
          dsimp only
          rw [if_pos (show 0 < reqOf (pairCount (rec.guess.zip p) c 'g',
            pairCount (rec.guess.zip p) c 'y', pairCount (rec.guess.zip p) c 'x')
            from by unfold reqOf; dsimp only; omega)]
          cases halo : alookup acc.charReq c <;> simp [combineOpt]

/-- The whole build preserves the fixed-character invariant. -/
theorem runBuild_greens_inv :
    ∀ (H : List GuessRecord) (acc : BuildAcc),
      (∀ c, some c ∈ acc.greens → alookup acc.charReq c ≠ none) →
      ∀ c, some c ∈ (runBuild H acc).greens →
        alookup (runBuild H acc).charReq c ≠ none
  | [], _, hinv => hinv
  | rec :: H, acc, hinv =>
    runBuild_greens_inv H (processGuess acc rec) (processGuess_greens_inv rec acc hinv)

/-- A successful findSome? comes from a member. -/
theorem exists_of_findSome_eq_some {α β : Type} (f : α → Option β) :
    ∀ (l : List α) (b : β), l.findSome? f = some b → ∃ x ∈ l, f x = some b
  | [], b, h => absurd h (by simp)
  | a :: l, b, h => by
    rw [List.findSome?_cons] at h
    cases hfa : f a with
    | some c =>
      rw [hfa] at h
      exact ⟨a, List.mem_cons_self a l, hfa.trans h⟩
    | none =>
      rw [hfa] at h
      obtain ⟨x, hx, hfx⟩ := exists_of_findSome_eq_some f l b h
      exact ⟨x, List.mem_cons_of_mem a hx, hfx⟩

/-- A failed findSome? fails on every member. -/
theorem forall_of_findSome_eq_none {α β : Type} (f : α → Option β) :
    ∀ l : List α, l.findSome? f = none → ∀ x ∈ l, f x = none
  | [], _, x, hx => absurd hx (by simp)
  | a :: l, h, x, hx => by
    rw [List.findSome?_cons] at h
    cases hfa : f a with
    | some c =>
      rw [hfa] at h
      exact absurd h (by simp)
    | none =>
      rw [hfa] at h
      rcases List.mem_cons.mp hx with rfl | hx2
      · exact hfa
      · exact forall_of_findSome_eq_none f l h x hx2

/-- The position violation predicate, reduced at known characters. -/
theorem posViol_iff (C : Constraints) (g p : List Char) (i : Nat) (ch color : Char)
    (hch : g[i]? = some ch) (hcolor : p[i]? = some color) :
    PosViol C g p i ↔
      ((∃ f, C.greens.getD i none = some f ∧ f ≠ ch ∧ color = 'g') ∨
       (C.greens.getD i none = some ch ∧ color ≠ 'g') ∨
       (ch ∈ C.excluded ∧ (color = 'g' ∨ color = 'y')) ∨
       (forbiddenHas C ch i = true ∧ color = 'g')) := by
  constructor
  · rintro ⟨ch2, color2, hch2, hcolor2, hdis⟩
    obtain rfl : ch = ch2 := Option.some.inj (hch.symm.trans hch2)
    obtain rfl : color = color2 := Option.some.inj (hcolor.symm.trans hcolor2)
    exact hdis
  · intro h
    exact ⟨ch, color, hch, hcolor, h⟩

/-- The per-position check returns nothing exactly when no violation is
present at that position. -/
theorem posViolation_none_iff (C : Constraints) (g p : List Char) (i : Nat)
    (ch color : Char) (hch : g[i]? = some ch) (hcolor : p[i]? = some color) :
    posViolation C g p i = none ↔ ¬ PosViol C g p i := by
  rw [posViol_iff C g p i ch color hch hcolor]
  unfold posViolation
  rw [hch, hcolor]
  dsimp only
  cases hg : C.greens.getD i none with
  | some f =>
    dsimp only
    by_cases hfc : f = ch <;> by_cases hcg : color = 'g' <;>
      by_cases hcy : color = 'y' <;> by_cases hE : ch ∈ C.excluded <;>
      by_cases hF : forbiddenHas C ch i = true <;>
      simp [hfc, hcg, hcy, hE, hF]
  | none =>
    dsimp only
    by_cases hcg : color = 'g' <;> by_cases hcy : color = 'y' <;>
      by_cases hE : ch ∈ C.excluded <;>
      by_cases hF : forbiddenHas C ch i = true <;>
      simp [hcg, hcy, hE, hF]

/-- Green-or-yellow cons step for the mark-count fold. -/
theorem alookup_gyFold (zs : List (Char × Char)) :
    ∀ (m : List (Char × Nat)) (c : Char),
    alookup (zs.foldl
      (fun m e => if e.2 = 'g' ∨ e.2 = 'y' then aupd m e.1 (fun n => n + 1) 0 else m) m) c =
      match alookup m c with
      | some n => some (n + (zs.filter fun x => x.1 = c ∧ (x.2 = 'g' ∨ x.2 = 'y')).length)
      | none =>
        if 0 < (zs.filter fun x => x.1 = c ∧ (x.2 = 'g' ∨ x.2 = 'y')).length then
          some ((zs.filter fun x => x.1 = c ∧ (x.2 = 'g' ∨ x.2 = 'y')).length)
        else none := by
  induction zs with
  | nil =>
    intro m c
    cases h : alookup m c <;> simp [h]
  | cons e zs ih =>
    intro m c
    rw [List.foldl_cons]
    by_cases hgy : e.2 = 'g' ∨ e.2 = 'y'
    · rw [if_pos hgy, ih, alookup_aupd]
      by_cases hec : e.1 = c
      · have hone : (if e.1 = c ∧ (e.2 = 'g' ∨ e.2 = 'y') then (1 : Nat) else 0) = 1 :=
          if_pos ⟨hec, hgy⟩
        rw [if_pos hec, gyFilter_cons, hone]
        cases h : alookup m c with
        | none =>
          have h2 : alookup m e.1 = none := by rw [hec]; exact h
          rw [h2]
          dsimp only
          rw [if_pos (by omega)]
          simp only [Option.getD_none]
        | some n =>
          have h2 : alookup m e.1 = some n := by rw [hec]; exact h
          rw [h2]
          dsimp only
          simp only [Option.getD_some]
          exact congrArg some (by omega)
      · have hzero : (if e.1 = c ∧ (e.2 = 'g' ∨ e.2 = 'y') then (1 : Nat) else 0) = 0 :=
          if_neg (fun hx => hec hx.1)
        rw [if_neg hec, gyFilter_cons, hzero, Nat.zero_add]
    · have hzero : (if e.1 = c ∧ (e.2 = 'g' ∨ e.2 = 'y') then (1 : Nat) else 0) = 0 :=
        if_neg (fun hx => hgy hx.2)
      rw [if_neg hgy, ih, gyFilter_cons, hzero, Nat.zero_add]

/-- Lookup in the green-or-yellow mark tally. -/
theorem alookup_charCountsGY (g p : List Char) (c : Char) :
    alookup (charCountsGY g p) c =
      if 0 < gyMarkCount g p c then some (gyMarkCount g p c) else none := by
  have h := alookup_gyFold (g.zip p) [] c
  unfold charCountsGY gyMarkCount
  rw [h]
  rfl

/-- Keys of the green-or-yellow mark tally are distinct. -/
theorem nodup_keysOf_charCountsGY (g p : List Char) :
    (keysOf (charCountsGY g p)).Nodup := by
  unfold charCountsGY
  refine foldl_preserve (fun m => (keysOf m).Nodup) _ ?_ (g.zip p) [] (by simp [keysOf])
  intro m e hm
  by_cases hgy : e.2 = 'g' ∨ e.2 = 'y'
  · simpa [hgy] using nodup_keysOf_aupd m e.1 (fun n => n + 1) 0 hm
  · simpa [hgy] using hm

/-- The count check returns nothing exactly when no count violation is
present. -/
theorem countCheck_none_iff (C : Constraints) (g p : List Char) :
    ((charCountsGY g p).findSome? (fun e =>
        match alookup C.maxCounts e.1 with
        | some m => if m < e.2 then some (CheckErr.overMax e.1 e.2 m) else none
        | none => none) = none) ↔ ¬ CountViol C g p := by
  constructor
  · intro h hviol
    obtain ⟨c, m, hm, hcnt⟩ := hviol
    have hpos : 0 < gyMarkCount g p c := by omega
    have hlook : alookup (charCountsGY g p) c = some (gyMarkCount g p c) := by
      rw [alookup_charCountsGY, if_pos hpos]
    have hmem : (c, gyMarkCount g p c) ∈ charCountsGY g p := alookup_mem _ _ _ hlook
    have := forall_of_findSome_eq_none _ _ h _ hmem
    rw [hm] at this
    simp [hcnt] at this
  · intro hnv
    cases hf : (charCountsGY g p).findSome? (fun e =>
        match alookup C.maxCounts e.1 with
        | some m => if m < e.2 then some (CheckErr.overMax e.1 e.2 m) else none
        | none => none) with
    | none => rfl
    | some err =>
      obtain ⟨e, hmem, hfx⟩ := exists_of_findSome_eq_some _ _ _ hf
      have hlook : alookup (charCountsGY g p) e.1 = some e.2 :=
        alookup_of_mem_nodup _ _ _ (nodup_keysOf_charCountsGY g p)
          (by rw [show (e.1, e.2) = e from rfl]; exact hmem)
      rw [alookup_charCountsGY] at hlook
      have he2 : e.2 = gyMarkCount g p e.1 := by
        by_cases hpos : 0 < gyMarkCount g p e.1
        · rw [if_pos hpos] at hlook
          exact (Option.some.inj hlook).symm
        · rw [if_neg hpos] at hlook
          exact absurd hlook (by simp)
      cases hmx : alookup C.maxCounts e.1 with
      | none =>
        rw [hmx] at hfx
        exact absurd hfx (by simp)
      | some m =>
        rw [hmx] at hfx
        dsimp only at hfx
        by_cases hlt : m < e.2
        · exact absurd ⟨e.1, m, hmx, by rw [← he2]; exact hlt⟩ hnv
        · rw [if_neg hlt] at hfx
          exact absurd hfx (by simp)

/-- One body unfolding only ever appends to the results list, provided
the recursive call does. -/
theorem dfsBody_extends (C : Constraints) (L maxR : Nat) (sched : Nat → Bool)
    (recur : Nat → List Char → (Char → Nat) → Bool → SState → SState)
    (hrec : ∀ pos cur used hq st,
      ∃ t, (recur pos cur used hq st).results = st.results ++ t) :
    ∀ pos cur used hq s,
      ∃ t, (dfsBody C L maxR sched recur pos cur used hq s).results = s.results ++ t := by
  intro pos cur used hq s
  unfold dfsBody
  split
  · exact ⟨[], by simp⟩
  · split
    · exact ⟨[], by simp⟩
    · split
      · split
        · exact ⟨[], by simp⟩
        · split
          · exact ⟨[], by simp⟩
          · split
            · exact ⟨[], by simp⟩
            · exact ⟨[cur], rfl⟩
      · split
        · split
          · exact ⟨[], by simp⟩
          · split
            · exact ⟨[], by simp⟩
            · exact hrec _ _ _ _ _
        · exact
            foldl_rel (fun a b : SState => ∃ t, b.results = a.results ++ t)
              (fun st => ⟨[], by simp⟩)
              (fun a b c hab hbc => by
                obtain ⟨t1, h1⟩ := hab
                obtain ⟨t2, h2⟩ := hbc
                exact ⟨t1 ++ t2, by rw [h2, h1, List.append_assoc]⟩)
              _ (allowedChars C)
              (fun st ch _ => by
                dsimp only
                split
                · exact ⟨[], by simp⟩
                · exact hrec _ _ _ _ _)
              _

/-- The dfs only ever appends to the results list. -/
theorem dfs_extends (C : Constraints) (L maxR : Nat) (sched : Nat → Bool) :
    ∀ fuel pos cur used hq s,
      ∃ t, (dfs C L maxR sched fuel pos cur used hq s).results = s.results ++ t
  | 0 => dfsBody_extends C L maxR sched _ (fun _ _ _ _ st => ⟨[], by simp⟩)
  | fuel + 1 => dfsBody_extends C L maxR sched _ (dfs_extends C L maxR sched fuel)

/-- Appending one character bumps the tally at exactly that character. -/
theorem tallyOf_append (l : List Char) (ch : Char) :
    tallyOf (l ++ [ch]) = usedAdd (tallyOf l) ch := by
  funext d
  by_cases h : d = ch <;>
    simp [tallyOf, usedAdd, List.count_append, List.count_singleton, h]

/-- Element lookup in an appended list, index inside the first part. -/
theorem getElem?_append_lt {α : Type} (l1 l2 : List α) (i : Nat)
    (h : i < l1.length) : (l1 ++ l2)[i]? = l1[i]? := by
  rw [List.getElem?_append, if_pos h]

/-- Element lookup in an appended list, index beyond the first part. -/
theorem getElem?_append_ge {α : Type} (l1 l2 : List α) (i : Nat)
    (h : l1.length ≤ i) : (l1 ++ l2)[i]? = l2[i - l1.length]? := by
  rw [List.getElem?_append, if_neg (by omega)]

/-- The previous-character lookup ignores a later appended character. -/
theorem lastCharAt_append (cur : List Char) (ch : Char) (i : Nat)
    (hi : i ≤ cur.length) :
    lastCharAt (cur ++ [ch]) i = lastCharAt cur i := by
  unfold lastCharAt
  by_cases h0 : i = 0
  · simp [h0]
  · rw [if_neg h0, if_neg h0, getElem?_append_lt cur [ch] (i - 1) (by omega)]

/-- An appended list looked up past its end yields nothing. -/
theorem getElem?_append_past {α : Type} (cur : List α) (ch : α) (i : Nat)
    (hi : cur.length < i) : (cur ++ [ch])[i]? = none := by
  rw [getElem?_append_ge cur [ch] i (by omega)]
  obtain ⟨k, hk⟩ : ∃ k, i - cur.length = k + 1 := ⟨i - cur.length - 1, by omega⟩
  rw [hk]
  simp

/-- An appended list looked up at the old length yields the new last
element. -/
theorem getElem?_append_self {α : Type} (cur : List α) (ch : α) :
    (cur ++ [ch])[cur.length]? = some ch := by
  rw [getElem?_append_ge cur [ch] cur.length (le_refl _)]
  simp

/-- Extending at a green-fixed position preserves the per-position
facts. -/
theorem allPosOK_extend_fixed (C : Constraints) (cur : List Char) (ch : Char)
    (hOK : AllPosOK C cur) (hg : C.greens.getD cur.length none = some ch) :
    AllPosOK C (cur ++ [ch]) := by
  intro i c hc
  rcases lt_trichotomy i cur.length with hi | hi | hi
  · rw [getElem?_append_lt cur [ch] i hi] at hc
    obtain ⟨h1, h2⟩ := hOK i c hc
    refine ⟨h1, fun hnone => ?_⟩
    obtain ⟨hf, hadj⟩ := h2 hnone
    refine ⟨hf, fun hop l hl => ?_⟩
    rw [lastCharAt_append cur ch i (by omega)] at hl
    exact hadj hop l hl
  · subst hi
    rw [getElem?_append_self cur ch] at hc
    obtain rfl : ch = c := Option.some.inj hc
    refine ⟨fun g hgg => ?_, fun hnone => ?_⟩
    · rw [hg] at hgg
      exact Option.some.inj hgg
    · rw [hg] at hnone
      exact absurd hnone (by simp)
  · rw [getElem?_append_past cur ch i hi] at hc
    exact absurd hc (by simp)

/-- Extending at a free position with a character that passed the
pruning preserves the per-position facts. -/
theorem allPosOK_extend_free (C : Constraints) (cur : List Char) (ch : Char)
    (hOK : AllPosOK C cur) (hg : C.greens.getD cur.length none = none)
    (hforb : forbiddenHas C ch cur.length = false)
    (hadj : adjacencyBlocks cur cur.length ch = false) :
    AllPosOK C (cur ++ [ch]) := by
  intro i c hc
  rcases lt_trichotomy i cur.length with hi | hi | hi
  · rw [getElem?_append_lt cur [ch] i hi] at hc
    obtain ⟨h1, h2⟩ := hOK i c hc
    refine ⟨h1, fun hnone => ?_⟩
    obtain ⟨hf, hadj2⟩ := h2 hnone
    refine ⟨hf, fun hop l hl => ?_⟩
    rw [lastCharAt_append cur ch i (by omega)] at hl
    exact hadj2 hop l hl
  · subst hi
    rw [getElem?_append_self cur ch] at hc
    obtain rfl : ch = c := Option.some.inj hc
    refine ⟨fun g hgg => ?_, fun _ => ⟨hforb, fun hop l hl hopl => ?_⟩⟩
    · rw [hg] at hgg
      exact absurd hgg (by simp)
    · rw [lastCharAt_append cur ch cur.length (le_refl _)] at hl
      unfold adjacencyBlocks at hadj
      rw [hl, hop] at hadj
      simp only [Bool.true_and] at hadj
      have hfirst : (isOperator l || (l = '=' : Bool)) = true := by
        rcases hopl with h | h
        · simp [h]
        · simp [h]
      rw [hfirst, Bool.true_and] at hadj
      rcases Bool.or_eq_false_iff.mp hadj with ⟨hc1, hc2⟩
      have hcm : ch = '-' := by
        by_cases hx : ch = '-'
        · exact hx
        · simp [hx] at hc1
      refine ⟨hcm, fun hlm => ?_⟩
      rw [hlm, hcm] at hc2
      simp at hc2
  · rw [getElem?_append_past cur ch i hi] at hc
    exact absurd hc (by simp)

/-- A failed max-count check bounds the bumped occurrence count. -/
theorem maxBlocks_eq_false (C : Constraints) (ch : Char) (n : Nat)
    (h : maxBlocks C ch n = false) :
    ∀ m, alookup C.maxCounts ch = some m → m ≠ 0 → n ≤ m := by
  intro m hm hm0
  unfold maxBlocks at h
  rw [hm] at h
  simp [hm0] at h
  omega

/-- The facts delivered by a character that was not skipped. -/
theorem skipChar_eq_false (C : Constraints) (L pos : Nat) (cur : List Char)
    (used : Char → Nat) (hq : Bool) (ch : Char)
    (h : skipChar C L pos cur used hq ch = false) :
    adjacencyBlocks cur pos ch = false ∧ forbiddenHas C ch pos = false ∧
      maxBlocks C ch (used ch + 1) = false := by
  unfold skipChar at h
  rcases Bool.or_eq_false_iff.mp h with ⟨h1, h6⟩
  rcases Bool.or_eq_false_iff.mp h1 with ⟨h2, h5⟩
  rcases Bool.or_eq_false_iff.mp h2 with ⟨h3, h4⟩
  rcases Bool.or_eq_false_iff.mp h3 with ⟨h7, h8⟩
  rcases Bool.or_eq_false_iff.mp h7 with ⟨h9, h10⟩
  exact ⟨h9, h4, h5⟩

/-- The invariant carried by the dfs extends across one appended
character, fixed-position case. -/
theorem searchInv_extend_fixed (C : Constraints) (pos : Nat) (cur : List Char)
    (used : Char → Nat) (hq : Bool) (ch : Char)
    (hInv : SearchInv C pos cur used hq)
    (hg : C.greens.getD pos none = some ch)
    (hmb : maxBlocks C ch (usedAdd used ch ch) = false) :
    SearchInv C (pos + 1) (cur ++ [ch]) (usedAdd used ch)
      (hq || (ch = '=' : Bool)) := by
  obtain ⟨hlen, hused, hqiff, hposok, hmax⟩ := hInv
  subst hlen
  refine ⟨by simp, by rw [hused, tallyOf_append], ?_, ?_, ?_⟩
  · constructor
    · intro h
      rcases Bool.or_eq_true_iff.mp h with h | h
      · simp [hqiff.mp h]
      · simp [of_decide_eq_true h]
    · intro h
      rcases List.mem_append.mp h with h | h
      · simp [hqiff.mpr h]
      · have hce : ch = '=' := (List.mem_singleton.mp h).symm
        simp [hce]
  · exact allPosOK_extend_fixed C cur ch hposok hg
  · intro c m hm hm0
    by_cases hcch : c = ch
    · subst hcch
      have hb := maxBlocks_eq_false C c _ hmb m hm hm0
      have : usedAdd used c c = cur.count c + 1 := by
        simp [usedAdd, hused, tallyOf]
      rw [this] at hb
      simpa [List.count_append, List.count_singleton] using hb
    · have := hmax c m hm hm0
      simpa [List.count_append, List.count_singleton, hcch] using this

/-- The invariant carried by the dfs extends across one appended
character, free-position case. -/
theorem searchInv_extend_free (C : Constraints) (L pos : Nat) (cur : List Char)
    (used : Char → Nat) (hq : Bool) (ch : Char)
    (hInv : SearchInv C pos cur used hq)
    (hg : C.greens.getD pos none = none)
    (hskip : skipChar C L pos cur used hq ch = false) :
    SearchInv C (pos + 1) (cur ++ [ch]) (usedAdd used ch)
      (hq || (ch = '=' : Bool)) := by
  obtain ⟨hadj, hforb, hmb⟩ := skipChar_eq_false C L pos cur used hq ch hskip
  obtain ⟨hlen, hused, hqiff, hposok, hmax⟩ := hInv
  subst hlen
  refine ⟨by simp, by rw [hused, tallyOf_append], ?_, ?_, ?_⟩
  · constructor
    · intro h
      rcases Bool.or_eq_true_iff.mp h with h | h
      · simp [hqiff.mp h]
      · simp [of_decide_eq_true h]
    · intro h
      rcases List.mem_append.mp h with h | h
      · simp [hqiff.mpr h]
      · have hce : ch = '=' := (List.mem_singleton.mp h).symm
        simp [hce]
  · exact allPosOK_extend_free C cur ch hposok hg hforb hadj
  · intro c m hm hm0
    by_cases hcch : c = ch
    · subst hcch
      have hb := maxBlocks_eq_false C c _ hmb m hm hm0
      have : used c + 1 = cur.count c + 1 := by
        simp [hused, tallyOf]
      rw [this] at hb
      simpa [List.count_append, List.count_singleton] using hb
    · have := hmax c m hm hm0
      simpa [List.count_append, List.count_singleton, hcch] using this

/-- Soundness of one body unfolding: any result not already present
satisfies GoodResult, provided the recursive call is likewise sound. -/
theorem dfsBody_sound (C : Constraints) (L maxR : Nat) (sched : Nat → Bool)
    (recur : Nat → List Char → (Char → Nat) → Bool → SState → SState)
    (hrec : ∀ pos cur used hq st, SearchInv C pos cur used hq →
      ∀ r ∈ (recur pos cur used hq st).results, r ∈ st.results ∨ GoodResult C L r) :
    ∀ pos cur used hq s, SearchInv C pos cur used hq →
      ∀ r ∈ (dfsBody C L maxR sched recur pos cur used hq s).results,
        r ∈ s.results ∨ GoodResult C L r := by
  intro pos cur used hq s hInv r hr
  unfold dfsBody at hr
  split at hr
  · exact Or.inl hr
  split at hr
  · exact Or.inl hr
  split at hr
  · rename_i hposL
    obtain ⟨hlen, hused, hqiff, hposok, hmax⟩ := hInv
    split at hr
    · exact Or.inl hr
    split at hr
    · exact Or.inl hr
    split at hr
    · exact Or.inl hr
    rename_i hhq hvalid hreq
    rcases List.mem_append.mp hr with h | h
    · exact Or.inl h
    right
    obtain rfl : r = cur := List.mem_singleton.mp h
    have hq1 : hq = true := by
      cases hq
      · exact absurd rfl hhq
      · rfl
    refine ⟨by omega, hqiff.mp hq1, ?_, ?_, ?_, hposok⟩
    · cases hvb : isValidEquation r
      · exact absurd hvb hvalid
      · rfl
    · intro e he
      have hrm : requiredMet C.requiredCounts used = true := by
        cases hrb : requiredMet C.requiredCounts used
        · exact absurd hrb hreq
        · rfl
      have := List.all_eq_true.mp hrm e he
      have := of_decide_eq_true this
      rwa [hused] at this
    · intro c m hm hm0
      exact hmax c m hm hm0
  · rename_i hposL
    split at hr
    · rename_i ch heq
      split at hr
      · exact Or.inl hr
      split at hr
      · exact Or.inl hr
      rename_i hfix hmb
      exact hrec _ _ _ _ ⟨s.results, s.calls + 1⟩
        (searchInv_extend_fixed C pos cur used hq ch hInv heq
          (Bool.eq_false_iff.mpr hmb)) r hr
    · rename_i heq
      have hstep : ∀ (st : SState) (ch : Char), ch ∈ allowedChars C →
          ∀ x ∈ ((fun st ch =>
              if skipChar C L pos cur used hq ch = true then st
              else recur (pos + 1) (cur ++ [ch]) (usedAdd used ch)
                (hq || (ch = '=' : Bool)) st) st ch).results,
            x ∈ st.results ∨ GoodResult C L x := by
        intro st ch _ x hx
        dsimp only at hx
        by_cases hsb : skipChar C L pos cur used hq ch = true
        · rw [if_pos hsb] at hx
          exact Or.inl hx
        · rw [if_neg hsb] at hx
          exact hrec _ _ _ _ _
            (searchInv_extend_free C L pos cur used hq ch hInv heq
              (Bool.eq_false_iff.mpr hsb)) x hx
      exact foldl_rel
        (fun a b : SState => ∀ x ∈ b.results, x ∈ a.results ∨ GoodResult C L x)
        (fun st x hx => Or.inl hx)
        (fun a b c hab hbc x hx => by
          rcases hbc x hx with h | h
          · exact hab x h
          · exact Or.inr h)
        _ (allowedChars C) hstep ⟨s.results, s.calls + 1⟩ r hr

/-- Soundness of the dfs: every result it adds satisfies GoodResult. -/
theorem dfs_sound (C : Constraints) (L maxR : Nat) (sched : Nat → Bool) :
    ∀ fuel pos cur used hq s, SearchInv C pos cur used hq →
      ∀ r ∈ (dfs C L maxR sched fuel pos cur used hq s).results,
        r ∈ s.results ∨ GoodResult C L r
  | 0 =>
    dfsBody_sound C L maxR sched _ (fun _ _ _ _ _ _ _ hr => Or.inl hr)
  | fuel + 1 =>
    dfsBody_sound C L maxR sched _ (dfs_sound C L maxR sched fuel)

/-- The invariant holds at the root call of the search. -/
theorem searchInv_init (C : Constraints) :
    SearchInv C 0 [] (fun _ => 0) false := by
  refine ⟨rfl, ?_, by simp, fun i c hc => by simp at hc, fun c m _ _ => by simp⟩
  funext c
  simp [tallyOf]

/-- Every string generateCandidates returns satisfies GoodResult. -/
theorem generateCandidates_sound (C : Constraints) (L maxR : Nat)
    (sched : Nat → Bool) :
    ∀ r ∈ generateCandidates C L maxR sched, GoodResult C L r := by
  intro r hr
  unfold generateCandidates at hr
  have hperm := List.perm_insertionSort
    (fun a b : List Char => scoreCandidate2 b ≤ scoreCandidate2 a)
    (dfs C L maxR sched L 0 [] (fun _ => 0) false ⟨[], 0⟩).results
  have hr2 := hperm.mem_iff.mp hr
  rcases dfs_sound C L maxR sched L 0 [] (fun _ => 0) false ⟨[], 0⟩
    (searchInv_init C) r hr2 with h | h
  · exact absurd h (by simp)
  · exact h

/-! Claim theorems. -/

/-- Claim C9: once the externally owned cancellation flag is set, every
subsequent recursive call of the search returns with only the call
counter bumped, expanding no branches and accepting no results; and
independently of the schedule, the search only ever appends to the
results list, so the results accepted before cancellation is observed
are exactly what it returns, never fewer. -/
theorem c9_cancellation (C : Constraints) (L maxR : Nat) (sched : Nat → Bool)
    (fuel pos : Nat) (cur : List Char) (used : Char → Nat) (hq : Bool) (s : SState) :
    (sched (s.calls + 1) = true →
      dfs C L maxR sched fuel pos cur used hq s = ⟨s.results, s.calls + 1⟩) ∧
    (∃ t, (dfs C L maxR sched fuel pos cur used hq s).results = s.results ++ t) := by
  constructor
  · intro h
    cases fuel <;> simp [dfs, dfsBody, h]
  · exact dfs_extends C L maxR sched fuel pos cur used hq s

/-- Witness for claim C9: with the flag already set at the first call,
the whole search returns the empty result list after one call. -/
theorem c9_witness :
    dfs emptyConstraints 5 1 (fun _ => true) 5 0 [] (fun _ => 0) false ⟨[], 0⟩ =
      ⟨[], 1⟩ :=
  (c9_cancellation emptyConstraints 5 1 (fun _ => true) 5 0 [] (fun _ => 0) false
    ⟨[], 0⟩).1 rfl

/-- Claim C10: on a 4 element multi-target pattern array the checker
result equals the result on the first pattern alone, so its verdict and
reason never depend on the patterns of targets 2 to 4. -/
theorem c10_multi_uses_first_pattern (g : List Char) (C : Constraints)
    (p0 p1 p2 p3 : List Char) :
    checkPatternConsistency g (PatternsArg.multi [p0, p1, p2, p3]) C =
      checkPatternConsistency g (PatternsArg.single p0) C := rfl

/-- Counterexample to claim C8: with the legal configured length 5, the
validator accepts a string of length 7, so acceptance does not require
the length to equal the configured session length. -/
theorem c8_counterexample :
    5 ≤ 5 ∧ 5 ≤ 20 ∧
    isValidEquation ['1', '2', '+', '3', '=', '1', '5'] = true ∧
    (['1', '2', '+', '3', '=', '1', '5'] : List Char).length ≠ 5 := by decide

/-- Claim C8 as amended: the validator accepts a string only if its
length is at least 5 and every character belongs to the 15 symbol
alphabet (the source checks expr.length lower than 5, never the
configured length). -/
theorem c8_amended (expr : List Char) (h : isValidEquation expr = true) :
    5 ≤ expr.length ∧ ∀ c ∈ expr, c ∈ alphabet := by
  by_cases h1 : expr.length < 5
  · rw [isValidEquation, if_pos h1] at h
    exact absurd h (by simp)
  · by_cases h2 : (expr.all fun c => alphabet.contains c) = true
    · refine ⟨by omega, fun c hc => ?_⟩
      have := List.all_eq_true.mp h2 c hc
      simpa [List.contains, List.elem_iff] using this
    · rw [isValidEquation, if_neg h1, if_pos (by simp [Bool.not_eq_true] at h2 ⊢; exact h2)] at h
      exact absurd h (by simp)

/-- Witness for the amended claim C8 at a concrete accepted equation. -/
theorem c8_witness :
    5 ≤ (['3', '+', '3', '=', '6'] : List Char).length ∧
      ∀ c ∈ (['3', '+', '3', '=', '6'] : List Char), c ∈ alphabet :=
  c8_amended ['3', '+', '3', '=', '6'] (by decide)

/-- Claim C1: for every ConstraintSet and options, every string returned
by generateCandidates has length exactly L, contains an equals sign, is
accepted by the Equation Validator, and its final per-character usage
tally meets every requiredCounts entry of the ConstraintSet. -/
theorem c1_results_sound (C : Constraints) (L maxR : Nat) (sched : Nat → Bool)
    (r : List Char) (hr : r ∈ generateCandidates C L maxR sched) :
    r.length = L ∧ '=' ∈ r ∧ isValidEquation r = true ∧
      ∀ e ∈ C.requiredCounts, e.2 ≤ r.count e.1 := by
  obtain ⟨h1, h2, h3, h4, _, _⟩ := generateCandidates_sound C L maxR sched r hr
  exact ⟨h1, h2, h3, h4⟩

/-- Witness for claim C1: the first result of the unconstrained search
of length 5 with result cap 1. -/
theorem c1_witness :
    (['0', '0', '0', '=', '0'] : List Char).length = 5 ∧
      '=' ∈ (['0', '0', '0', '=', '0'] : List Char) ∧
      isValidEquation ['0', '0', '0', '=', '0'] = true ∧
      ∀ e ∈ emptyConstraints.requiredCounts,
        e.2 ≤ (['0', '0', '0', '=', '0'] : List Char).count e.1 :=
  c1_results_sound emptyConstraints 5 1 neverCancelled ['0', '0', '0', '=', '0']
    (by decide)

/-- Claim C2 as amended: every result meets every requiredCounts entry
and every nonzero maxCounts entry (a zero entry is falsy in the source
and never enforced), a green-fixed position always carries its fixed
character, and at every position that is not green-fixed the character
never occupies a forbidden position (a green-fixed position bypasses the
forbidden-position check, as the counterexample shows). -/
theorem c2_amended (C : Constraints) (L maxR : Nat) (sched : Nat → Bool)
    (r : List Char) (hr : r ∈ generateCandidates C L maxR sched) :
    (∀ e ∈ C.requiredCounts, e.2 ≤ r.count e.1) ∧
    (∀ c m, alookup C.maxCounts c = some m → m ≠ 0 → r.count c ≤ m) ∧
    (∀ i c, r[i]? = some c → ∀ g, C.greens.getD i none = some g → c = g) ∧
    (∀ i c, r[i]? = some c → C.greens.getD i none = none →
      forbiddenHas C c i = false) := by
  obtain ⟨_, _, _, h4, h5, h6⟩ := generateCandidates_sound C L maxR sched r hr
  refine ⟨h4, h5, fun i c hc g hg => (h6 i c hc).1 g hg,
    fun i c hc hg => ((h6 i c hc).2 hg).1⟩

/-- Witness for the amended claim C2 on the concrete search of
cex2Constraints. -/
theorem c2_witness :
    (∀ e ∈ cex2Constraints.requiredCounts,
      e.2 ≤ (['3', '0', '=', '3', '0'] : List Char).count e.1) ∧
    (∀ c m, alookup cex2Constraints.maxCounts c = some m → m ≠ 0 →
      (['3', '0', '=', '3', '0'] : List Char).count c ≤ m) ∧
    (∀ i c, (['3', '0', '=', '3', '0'] : List Char)[i]? = some c →
      ∀ g, cex2Constraints.greens.getD i none = some g → c = g) ∧
    (∀ i c, (['3', '0', '=', '3', '0'] : List Char)[i]? = some c →
      cex2Constraints.greens.getD i none = none →
      forbiddenHas cex2Constraints c i = false) :=
  c2_amended cex2Constraints 5 1 neverCancelled ['3', '0', '=', '3', '0']
    (by decide)

/-- Claim C4 as amended: in every result, at every position that is not
green-fixed, an operator never immediately follows another operator or
the equals sign, except that a single minus may, and a minus never
immediately follows a minus; green-fixed positions bypass the adjacency
check, so fixedPositions placing operators at adjacent positions can
violate the rule (as the counterexample shows). -/
theorem c4_amended (C : Constraints) (L maxR : Nat) (sched : Nat → Bool)
    (r : List Char) (hr : r ∈ generateCandidates C L maxR sched)
    (i : Nat) (c l : Char) (hc : r[i]? = some c)
    (hfree : C.greens.getD i none = none) (hop : isOperator c = true)
    (hl : lastCharAt r i = some l) (hopl : isOperator l = true ∨ l = '=') :
    c = '-' ∧ l ≠ '-' := by
  obtain ⟨_, _, _, _, _, h6⟩ := generateCandidates_sound C L maxR sched r hr
  exact ((h6 i c hc).2 hfree).2 hop l hl hopl

/-- Witness for the amended claim C4: in the result 6*-2=-12 of the
search of wit4Constraints, the free position 2 carries a minus directly
after the fixed star, and the amended rule holds there. -/
theorem c4_witness :
    ('-' : Char) = '-' ∧ ('*' : Char) ≠ '-' :=
  c4_amended wit4Constraints 8 200 neverCancelled
    ['6', '*', '-', '2', '=', '-', '1', '2'] (by decide) 2 '-' '*'
    (by decide) (by decide) (by decide) (by decide) (Or.inl (by decide))

/-- Claim C5: for every history of non-solved well-formed records, the
built requiredCounts entry of a character is the maximum over individual
guesses of its green-plus-yellow count, minus the number of fixed
positions assigned that character, floored at zero (entry present
exactly when some guess saw the character green or yellow); and the
maxCounts entry is the minimum over guesses of the single-guess cap
established when the character received a gray alongside greens or
yellows in the same guess. -/
theorem c5_build_counts (H : List GuessRecord) (L : Nat)
    (hwf : ∀ rec ∈ H, rec.solved = false ∧
      ∃ p, rec.patterns = PatternsArg.single p ∧ p.length = rec.guess.length)
    (c : Char) :
    alookup (buildConstraintsFromGuesses H L).requiredCounts c =
      (if 0 < specGreenYellowMax H c then
        some (specGreenYellowMax H c -
          greensAssigned (buildConstraintsFromGuesses H L) c)
      else none) ∧
    alookup (buildConstraintsFromGuesses H L).maxCounts c =
      (if specCaps H c = [] then none else some (minList (specCaps H c))) := by
  have hwf2 : ∀ rec ∈ H, WellFormedRec rec := hwf
  have hacc : alookup (runBuild H (accInit L)).charReq c =
      combineOpt none (reqDeltas H c) := by
    have h := runBuild_charReq H hwf2 (accInit L) c
    rwa [show alookup (accInit L).charReq c = none from rfl] at h
  have haccM : alookup (runBuild H (accInit L)).charMax c =
      combineOpt none (capDeltas H c) := by
    have h := runBuild_charMax H hwf2 (accInit L) c
    rwa [show alookup (accInit L).charMax c = none from rfl] at h
  have hm1 := alookup_map_key ((runBuild H (accInit L)).charReq)
    (fun _ v => maxList v) c
  have hm2 := alookup_map_key
    (((runBuild H (accInit L)).charReq).map fun e => (e.1, maxList e.2))
    (fun a v => v - ((runBuild H (accInit L)).greens.filterMap id).count a) c
  constructor
  · rw [build_requiredCounts, hm2, hm1, hacc]
    by_cases hnil : reqDeltas H c = []
    · rw [hnil]
      have h0 : specGreenYellowMax H c = 0 := (reqDeltas_nil_iff H c).mp hnil
      rw [if_neg (by omega)]
      rfl
    · have hpos : 0 < specGreenYellowMax H c := by
        have := (reqDeltas_nil_iff H c).not
        have h2 : ¬(specGreenYellowMax H c = 0) := fun hx => hnil ((reqDeltas_nil_iff H c).mpr hx)
        omega
      rw [if_pos hpos]
      show ((combineOpt none (reqDeltas H c)).map maxList).map _ = _
      rw [show combineOpt none (reqDeltas H c) = some (reqDeltas H c) from by
        rw [combineOpt, if_neg hnil]]
      have hred : Option.map
          (fun v => v - List.count c (List.filterMap id (runBuild H (accInit L)).greens))
          (Option.map maxList (some (reqDeltas H c))) =
          some (maxList (reqDeltas H c) -
            List.count c (List.filterMap id (runBuild H (accInit L)).greens)) := rfl
      rw [hred, maxList_reqDeltas]
      rfl
  · have hm3 := alookup_map_key ((runBuild H (accInit L)).charMax)
      (fun _ v => minList v) c
    rw [build_maxCounts, hm3, haccM, capDeltas_eq_specCaps]
    by_cases hnil : specCaps H c = []
    · rw [hnil, if_pos rfl]
      rfl
    · rw [if_neg hnil]
      rw [show combineOpt none (specCaps H c) = some (specCaps H c) from by
        rw [combineOpt, if_neg hnil]]
      rfl

/-- Witness for claim C5 on the Scenario B history at the character +:
one green occurrence, one fixed position, so the entry is max 1 minus 1,
that is 0. -/
theorem c5_witness :
    (alookup (buildConstraintsFromGuesses scenarioBHistory 5).requiredCounts '+' =
      if 0 < specGreenYellowMax scenarioBHistory '+' then
        some (specGreenYellowMax scenarioBHistory '+' -
          greensAssigned (buildConstraintsFromGuesses scenarioBHistory 5) '+')
      else none) ∧
    (alookup (buildConstraintsFromGuesses scenarioBHistory 5).maxCounts '+' =
      if specCaps scenarioBHistory '+' = [] then none
      else some (minList (specCaps scenarioBHistory '+'))) :=
  c5_build_counts scenarioBHistory 5
    (by
      intro rec hrec
      obtain rfl : rec = ⟨['2', '+', '2', '=', '4'],
          PatternsArg.single ['x', 'g', 'x', 'g', 'x'], false⟩ :=
        List.mem_singleton.mp hrec
      exact ⟨rfl, ['x', 'g', 'x', 'g', 'x'], rfl, rfl⟩)
    '+'

/-- Claim C6: in every built ConstraintSet, no character with a positive
requiredCounts entry and no character occupying a fixed position is also
a member of excludedChars, for arbitrary histories, including ones in
which one guess grayed the character everywhere and another marked it
green or yellow. -/
theorem c6_invariant (H : List GuessRecord) (L : Nat) (c : Char) :
    ((∃ v, alookup (buildConstraintsFromGuesses H L).requiredCounts c = some v ∧
        0 < v) →
      c ∉ (buildConstraintsFromGuesses H L).excluded) ∧
    (some c ∈ (buildConstraintsFromGuesses H L).greens →
      c ∉ (buildConstraintsFromGuesses H L).excluded) := by
  constructor
  · rintro ⟨v, hv, hpos⟩ hmem
    rw [build_excluded] at hmem
    have hcond := (List.mem_filter.mp hmem).2
    rw [hv] at hcond
    simp [hpos] at hcond
  · intro hg hmem
    have hg2 : some c ∈ (runBuild H (accInit L)).greens := by
      rw [build_greens] at hg
      exact hg
    have hinit : ∀ d, some d ∈ (accInit L).greens →
        alookup (accInit L).charReq d ≠ none := by
      intro d hd
      have := List.eq_of_mem_replicate hd
      exact absurd this (by simp)
    have hcr : alookup (runBuild H (accInit L)).charReq c ≠ none :=
      runBuild_greens_inv H (accInit L) hinit c hg2
    obtain ⟨l, hl⟩ : ∃ l, alookup (runBuild H (accInit L)).charReq c = some l := by
      cases h : alookup (runBuild H (accInit L)).charReq c with
      | none => exact absurd h hcr
      | some l => exact ⟨l, rfl⟩
    have hv : alookup (buildConstraintsFromGuesses H L).requiredCounts c =
        some (maxList l - ((runBuild H (accInit L)).greens.filterMap id).count c) := by
      have hm1 := alookup_map_key ((runBuild H (accInit L)).charReq)
        (fun _ v => maxList v) c
      have hm2 := alookup_map_key
        (((runBuild H (accInit L)).charReq).map fun e => (e.1, maxList e.2))
        (fun a v => v - ((runBuild H (accInit L)).greens.filterMap id).count a) c
      rw [build_requiredCounts, hm2, hm1, hl]
      rfl
    have hcount : 0 < ((runBuild H (accInit L)).greens.filterMap id).count c := by
      have hmf : c ∈ (runBuild H (accInit L)).greens.filterMap id :=
        List.mem_filterMap.mpr ⟨some c, hg2, rfl⟩
      exact List.count_pos_iff.mpr hmf
    rw [build_excluded] at hmem
    have hcond := (List.mem_filter.mp hmem).2
    rw [hv] at hcond
    simp [hcount] at hcond

/-- Witness for claim C6 on the two-guess history in which 3 is first
grayed everywhere and later marked yellow: its requirement is 1 and it
is not excluded. -/
theorem c6_witness :
    alookup (buildConstraintsFromGuesses hist6Records 5).requiredCounts '3' =
      some 1 ∧
    '3' ∉ (buildConstraintsFromGuesses hist6Records 5).excluded :=
  ⟨by decide, (c6_invariant hist6Records 5 '3').1 ⟨1, by decide, by decide⟩⟩

/-- Counterexample to claim C2: the search on cex2Constraints produces
the string 30=30 whose character 3 occupies the forbidden position 0
(because position 0 is green-fixed to 3) and occurs twice although the
maxCounts entry for 3 is 0 (a falsy entry the source never checks). -/
theorem c2_counterexample :
    ['3', '0', '=', '3', '0'] ∈ generateCandidates cex2Constraints 5 1 neverCancelled ∧
    (['3', '0', '=', '3', '0'] : List Char)[0]? = some '3' ∧
    forbiddenHas cex2Constraints '3' 0 = true ∧
    alookup cex2Constraints.maxCounts '3' = some 0 ∧
    ¬((['3', '0', '=', '3', '0'] : List Char).count '3' ≤ 0) := by decide

/-- Claim C3: from the single guess 2+2=4 with pattern x g x g x at
length 5, the built constraints exclude 2 and 4 and fix + at index 1 and
the equals sign at index 3, and the search with the default cap of 200
returns a result set containing 3+3=6 and no string containing 2 or 4. -/
theorem c3_scenarioB :
    scenarioBConstraints.greens.getD 1 none = some '+' ∧
    scenarioBConstraints.greens.getD 3 none = some '=' ∧
    '2' ∈ scenarioBConstraints.excluded ∧
    '4' ∈ scenarioBConstraints.excluded ∧
    ['3', '+', '3', '=', '6'] ∈
      generateCandidates scenarioBConstraints 5 200 neverCancelled ∧
    ∀ r ∈ generateCandidates scenarioBConstraints 5 200 neverCancelled,
      '2' ∉ r ∧ '4' ∉ r :=
  ⟨by decide, by decide, by decide, by decide, by decide, by decide⟩

/-- Counterexample to claim C4: with adjacent operators green-fixed, the
search returns the string 3-+2=1 in which the operator + immediately
follows the operator -, violating the claimed adjacency invariant. -/
theorem c4_counterexample :
    generateCandidates cex4Constraints 6 200 neverCancelled =
      [['3', '-', '+', '2', '=', '1']] ∧
    (['3', '-', '+', '2', '=', '1'] : List Char)[1]? = some '-' ∧
    (['3', '-', '+', '2', '=', '1'] : List Char)[2]? = some '+' ∧
    isOperator '-' = true ∧ isOperator '+' = true ∧ ('+' : Char) ≠ '-' := by decide

/-- Claim C7: for a prospective guess and single pattern of matching
positive length, checkPatternConsistency returns valid exactly when no
violation exists: no position fixed to a different character marked
green, no position fixed to the same character marked non-green, no
excluded character marked green or yellow, no forbidden-position
character marked green there, and no green-plus-yellow count exceeding
an existing maxCounts entry; and against the Scenario B constraints the
guess 5*5=5 with the asterisk marked green at index 1 is rejected with
a reason citing index 1 being fixed to the plus sign. -/
theorem c7_checker :
    (∀ (g p : List Char) (C : Constraints), 0 < g.length → p.length = g.length →
      (checkPatternConsistency g (PatternsArg.single p) C = CheckResult.ok ↔
        ¬ CheckerViol C g p)) ∧
    checkPatternConsistency ['5', '*', '5', '=', '5']
      (PatternsArg.single ['x', 'g', 'x', 'x', 'x']) scenarioBConstraints =
      CheckResult.fail (CheckErr.fixedOther 1 '+' '*') := by
  constructor
  · intro g p C hg hlen
    have hpne : p.isEmpty = false := by
      cases p with
      | nil => exfalso; rw [List.length_nil] at hlen; omega
      | cons a l => rfl
    have hguard : (p.isEmpty || !(p.length = g.length : Bool)) = false := by
      rw [hpne, hlen]; simp
    unfold checkPatternConsistency
    dsimp only [resolvePatterns]
    rw [hguard]
    rw [if_neg Bool.false_ne_true]
    cases hpv : (List.range g.length).findSome? (posViolation C g p) with
    | some e =>
      dsimp only
      constructor
      · intro h; exact absurd h (by simp)
      · intro hnv
        exfalso
        obtain ⟨i, hi, hfx⟩ := exists_of_findSome_eq_some _ _ _ hpv
        have hilt : i < g.length := List.mem_range.mp hi
        have hiplt : i < p.length := by omega
        have hch : g[i]? = some g[i] := List.getElem?_eq_getElem hilt
        have hcolor : p[i]? = some p[i] := List.getElem?_eq_getElem hiplt
        have hpviol : PosViol C g p i := by
          by_contra hn
          have hnone := (posViolation_none_iff C g p i _ _ hch hcolor).mpr hn
          rw [hfx] at hnone
          exact Option.noConfusion hnone
        exact hnv (Or.inl ⟨i, hilt, hpviol⟩)
    | none =>
      dsimp only
      cases hcc : (charCountsGY g p).findSome? (fun e =>
          match alookup C.maxCounts e.1 with
          | some m => if m < e.2 then some (CheckErr.overMax e.1 e.2 m) else none
          | none => none) with
      | some e =>
        dsimp only
        constructor
        · intro h; exact absurd h (by simp)
        · intro hnv
          exfalso
          apply hnv
          right
          by_contra hnc
          have := (countCheck_none_iff C g p).mpr hnc
          rw [hcc] at this
          exact Option.noConfusion this
      | none =>
        dsimp only
        constructor
        · intro _
          rintro (⟨i, hi, hpviol⟩ | hcv)
          · have hiplt : i < p.length := by omega
            have hch : g[i]? = some g[i] := List.getElem?_eq_getElem hi
            have hcolor : p[i]? = some p[i] := List.getElem?_eq_getElem hiplt
            have hnone := forall_of_findSome_eq_none _ _ hpv i (List.mem_range.mpr hi)
            exact (posViolation_none_iff C g p i _ _ hch hcolor).mp hnone hpviol
          · exact (countCheck_none_iff C g p).mp hcc hcv
        · intro _; rfl
  · decide

/-- Witness for claim C7 at a concrete consistent guess against the
empty constraint set. -/
theorem c7_witness :
    ¬ CheckerViol emptyConstraints ['1', '+', '1', '=', '2']
      ['x', 'x', 'x', 'x', 'x'] :=
  (c7_checker.1 ['1', '+', '1', '=', '2'] ['x', 'x', 'x', 'x', 'x']
    emptyConstraints (by decide) (by decide)).mp (by decide)

end WordleSolver
